import Mathlib

/-!
# Verification of the ArieoEngine package manager core

Shallow embedding of the resolution and orchestration engine of the
ArieoEngine package manager (`init_packages.py`, `process_packages.py`,
`package/build_package.py`, `package/install_package.py`), together with
proofs about the embedded definitions.

Python dictionaries are modelled as association lists (`List (String × α)`)
with insertion-order semantics: updating an existing key keeps its position,
inserting a new key appends at the end.  Python's falsiness test on strings
(`if s:`) is modelled by comparison with the empty string, and `dict.get`
of a possibly missing key by `Option`.  Filesystem-dependent operations
(`Path.resolve`) are modelled as the identity on the given path strings,
which is irrelevant to all of the properties below.
-/

namespace Arieo

/-- Python dict assignment `m[k] = v`: replace in place when the key is
present, append otherwise. -/
def dictInsert {α : Type} (m : List (String × α)) (k : String) (v : α) :
    List (String × α) :=
  if (List.lookup k m).isSome then
    m.map (fun p => if p.1 = k then (k, v) else p)
  else
    m ++ [(k, v)]

/-! ## String utilities

Python string operations are modelled on `List Char` so that everything
reduces by computation.  `replaceAllF` mirrors `str.replace` (all
non-overlapping occurrences, scanned left to right); the `Nat` argument is
explicit fuel bounding the number of scanning steps, always instantiated
with the length of the string, which suffices. -/

/-- Python `s.replace(pat, rep)` on character lists, with explicit fuel. -/
def replaceAllF (pat rep : List Char) : Nat → List Char → List Char
  | 0, s => s
  | _ + 1, [] => []
  | f + 1, c :: rest =>
    if pat ≠ [] ∧ pat.isPrefixOf (c :: rest) then
      rep ++ replaceAllF pat rep f ((c :: rest).drop pat.length)
    else
      c :: replaceAllF pat rep f rest

/-- Python `s.replace(pat, rep)` (for non-empty `pat`, the only use here). -/
def pyReplace (s pat rep : String) : String :=
  ⟨replaceAllF pat.data rep.data s.data.length s.data⟩

/-- Python `s.upper()` (ASCII, which covers every name in this system). -/
def upperStr (s : String) : String := ⟨s.data.map Char.toUpper⟩

/-- `pat` occurs as a contiguous substring of `s`. -/
def occursIn (s pat : List Char) : Prop := ∃ l r, s = l ++ pat ++ r

/-- Python `pat in s` (substring containment), executable form. -/
def containsSub (s pat : String) : Bool :=
  (List.range (s.data.length + 1)).any (fun i => pat.data.isPrefixOf (s.data.drop i))

/-- Python `s.rstrip('/')`. -/
def stripTrailingSlashes (s : List Char) : List Char :=
  (s.reverse.dropWhile (fun c => c == '/')).reverse

/-- Python `s.split(sep)` for a one-character separator:
`"a//b".split('/') = ["a", "", "b"]`, `"".split('/') = [""]`. -/
def splitOnCharAux (sep : Char) : List Char → List Char → List (List Char)
  | [], acc => [acc.reverse]
  | c :: rest, acc =>
    if c == sep then acc.reverse :: splitOnCharAux sep rest []
    else splitOnCharAux sep rest (c :: acc)

def splitOnChar (sep : Char) (s : List Char) : List (List Char) :=
  splitOnCharAux sep s []

/-! ## Combination generator (`process_packages.py`, `generate_env_combinations`)

A caller-supplied environment override is either a single string value or a
list of string values; a full override set is an ordered mapping (Python
dict in insertion order). -/

/-- A value of the `env_vars` dict in `generate_env_combinations`. -/
inductive EnvVal : Type
  | single (v : String)
  | multi (vs : List String)
deriving DecidableEq

/-- `build_type_order` from `generate_env_combinations`. -/
def build_type_order : List String := ["Release", "RelWithDebInfo", "Debug", "MinSizeRel"]

/-- The loop `for v in value: if v not in sorted_value: sorted_value.append(v)`. -/
def appendMissing (init : List String) (value : List String) : List String :=
  value.foldl (fun acc v => if acc.contains v then acc else acc ++ [v]) init

/-- The BUILD_TYPE preference reordering applied to a multi-valued entry:
`if 'BUILD_TYPE' in key.upper(): ...`. -/
def sortBuildTypes (key : String) (value : List String) : List String :=
  if containsSub (upperStr key) "BUILD_TYPE" then
    appendMissing (build_type_order.filter (fun bt => value.contains bt)) value
  else value

/-- The multi-valued entries (`multi_value_vars`), in declared key order,
with the BUILD_TYPE reordering already applied as in the source. -/
def multiValueVars (env_vars : List (String × EnvVal)) : List (String × List String) :=
  env_vars.filterMap (fun p => match p.2 with
    | EnvVal.multi vs => some (p.1, sortBuildTypes p.1 vs)
    | EnvVal.single _ => none)

/-- The single-valued entries (`single_value_vars`), in declared key order. -/
def singleValueVars (env_vars : List (String × EnvVal)) : List (String × String) :=
  env_vars.filterMap (fun p => match p.2 with
    | EnvVal.single v => some (p.1, v)
    | EnvVal.multi _ => none)

/-- `itertools.product`: rightmost list varies fastest. -/
def cartProd : List (List String) → List (List String)
  | [] => [[]]
  | vs :: rest => vs.flatMap (fun v => (cartProd rest).map (fun c => v :: c))

/-- `generate_env_combinations(env_vars)`: the ordered list of single-valued
environment maps (each a dict, modelled as an association list built with
`dictInsert` starting from the single-valued entries). -/
def generate_env_combinations (env_vars : List (String × EnvVal)) :
    List (List (String × String)) :=
  if env_vars.isEmpty then [[]]
  else
    let multi := multiValueVars env_vars
    let single := singleValueVars env_vars
    if multi.isEmpty then [single]
    else
      (cartProd (multi.map (·.2))).map (fun combo =>
        ((multi.map (·.1)).zip combo).foldl (fun m kv => dictInsert m kv.1 kv.2) single)

/-! ## Command-string expansion (`package/build_package.py` lines 50–59,
`package/install_package.py` lines 46–55)

For every entry of the merged environment, in mapping order, the three token
forms `$ENV{NAME}`, `${NAME}`, `$NAME` are textually replaced by the value,
in that per-entry order. -/

/-- The expansion loop `for key, value in full_env.items(): ...replace...`. -/
def expandCommand (env : List (String × String)) (cmd : String) : String :=
  env.foldl (fun c kv =>
    pyReplace (pyReplace (pyReplace c ("$ENV\x7b" ++ kv.1 ++ "\x7d") kv.2)
        ("$\x7b" ++ kv.1 ++ "\x7d") kv.2)
      ("$" ++ kv.1) kv.2) cmd

/-! ## Resolver data model (`init_packages.py`)

`packages_data` is a Python dict mapping the repository name of each package
to its download record; it is modelled as an association list whose keys are
unique (dict keys), which the theorems take as a hypothesis where needed.
`arieo_package.json` contents are modelled post-parsing: the `dependencies.packages`
list is flattened into `deps` with the `tag` default `'main'` already applied
by `dep.get('tag', 'main')` (config parsing is an external collaborator). -/

/-- One entry of `dependencies.packages` in `arieo_package.json`. -/
structure DepDecl where
  git_url : String
  tag : String
deriving DecidableEq

/-- The parsed contents of a package's `arieo_package.json`. -/
structure ArieoData where
  name : Option String
  description : String
  deps : List DepDecl
  build_commands : List String
  install_commands : List String
deriving DecidableEq

/-- One value of the `packages_data` dict built by `init_all_packages`
(`arieo` is `None` when `arieo_package.json` was absent; a present-but-empty
document behaves identically in every consumer and is folded into `none`). -/
structure PkgInfo where
  git_url : Option String
  tag : String
  path : String
  folder_name : String
  arieo : Option ArieoData
deriving DecidableEq

/-- `packages_data`: repository name → download record, in insertion order. -/
abbrev PackagesData := List (String × PkgInfo)

/-- `git_url.rstrip('/').split('/')[-1].replace('.git', '')`: the canonical
dependency name derived from a source URL.  Note that `str.replace` removes
every occurrence of `.git`, not only a suffix. -/
def canonicalDepName (url : String) : String :=
  let seg := (splitOnChar '/' (stripTrailingSlashes url.data)).getLastD []
  ⟨replaceAllF ".git".data [] seg.length seg⟩

def depsOf (info : PkgInfo) : List DepDecl :=
  match info.arieo with
  | some a => a.deps
  | none => []

def depNamesOf (info : PkgInfo) : List String :=
  (depsOf info).map (fun d => canonicalDepName d.git_url)

def pkgNames (pd : PackagesData) : List String := pd.map (·.1)

/-! ## Conflict detection (`check_dependency_conflicts`, lines 135–180) -/

/-- `dependency_requirements[dep_name][pkg_name] = dep_tag` on the
`defaultdict(dict)`. -/
def reqInsert (reqs : List (String × List (String × String)))
    (depName pkg tag : String) : List (String × List (String × String)) :=
  dictInsert reqs depName (dictInsert ((List.lookup depName reqs).getD []) pkg tag)

/-- The fully built `dependency_requirements` mapping. -/
def depRequirements (pd : PackagesData) : List (String × List (String × String)) :=
  pd.foldl (fun reqs p =>
    (depsOf p.2).foldl (fun reqs dep =>
      reqInsert reqs (canonicalDepName dep.git_url) p.1 dep.tag) reqs) []

/-- The `conflicts` list: entries whose requirement dict holds more than one
distinct tag (`len(set(requirements.values())) > 1`). -/
def conflictEntries (pd : PackagesData) : List (String × List (String × String)) :=
  (depRequirements pd).filter (fun e => 1 < ((e.2.map (·.2)).dedup).length)

/-- `check_dependency_conflicts`: `some conflicts` models the fatal
`sys.exit(1)` path whose message lists, for every conflicting dependency
name, each (dependent, tag) requirement pair; `none` means no conflict. -/
def check_dependency_conflicts (pd : PackagesData) :
    Option (List (String × List (String × String))) :=
  if (conflictEntries pd).isEmpty then none else some (conflictEntries pd)

/-- The tag of the last declaration of dependency name `n` in a dependency
list (later declarations overwrite earlier ones in the requirements dict). -/
def lastTagOf : List DepDecl → String → Option String
  | [], _ => none
  | d :: ds, n =>
    match lastTagOf ds n with
    | some t => some t
    | none => if canonicalDepName d.git_url = n then some d.tag else none

/-- `dependency_requirements[depName].get(pkg)`: the tag recorded for
dependent `pkg` under dependency name `depName`. -/
def reqLookup (reqs : List (String × List (String × String)))
    (depName pkg : String) : Option String :=
  List.lookup pkg ((List.lookup depName reqs).getD [])

/-- Example fixture: a downloaded package record whose `arieo_package.json`
declares the given dependencies and nothing else. -/
def mkPkgInfo (path : String) (deps : List DepDecl) : PkgInfo :=
  ⟨none, "main", path, path, some ⟨none, "", deps, [], []⟩⟩

/-! ## Topological sort (`topological_sort`, lines 183–237)

Kahn's algorithm on the multigraph whose edge `u → v` (one per matching
dependency declaration) records that known package `v` depends on known
package `u`.  The `while queue` loop is modelled with explicit fuel; the
fuel passed by `topological_sort` (total in-degree plus initial queue
length) bounds the number of iterations, so the loop never truncates. -/

/-- `graph[u]`: dependents of `u`, with multiplicity, in insertion order. -/
def adj (pd : PackagesData) (u : String) : List String :=
  if u ∈ pkgNames pd then
    pd.flatMap (fun p => ((depNamesOf p.2).filter (fun d => d == u)).map (fun _ => p.1))
  else []

/-- `in_degree[pkg]` after graph construction: the number of dependency
declarations of `pkg` whose canonical name is a known package. -/
def inDegreeOf (pd : PackagesData) (info : PkgInfo) : Nat :=
  ((depNamesOf info).filter (fun d => (pkgNames pd).contains d)).length

def initialDeg (pd : PackagesData) : List (String × Nat) :=
  pd.map (fun p => (p.1, inDegreeOf pd p.2))

/-- `queue = [pkg for pkg in packages_data if in_degree[pkg] == 0]`. -/
def initialQueue (pd : PackagesData) : List String :=
  (pkgNames pd).filter (fun n => List.lookup n (initialDeg pd) == some 0)

/-- `in_degree[neighbor] -= 1` (with `Nat` saturation; the queue-append test
below compares the value before decrementing with 1, which coincides with
Python's `== 0` test after decrementing, also on the unreachable negative
branch). -/
def updKey (deg : List (String × Nat)) (k : String) : List (String × Nat) :=
  deg.map (fun p => if p.1 = k then (p.1, p.2 - 1) else p)

/-- The inner `for neighbor in graph[current]` loop of Kahn's algorithm. -/
def stepNeighbors : List String → List (String × Nat) → List String →
    List (String × Nat) × List String
  | [], deg, queue => (deg, queue)
  | n :: ns, deg, queue =>
    let queue' := if List.lookup n deg = some 1 then queue ++ [n] else queue
    stepNeighbors ns (updKey deg n) queue'

/-- The `while queue` loop, with fuel. -/
def kahnLoopF (adjf : String → List String) :
    Nat → List (String × Nat) → List String → List String
  | 0, _, _ => []
  | _ + 1, _, [] => []
  | f + 1, deg, cur :: rest =>
    let s := stepNeighbors (adjf cur) deg rest
    cur :: kahnLoopF adjf f s.1 s.2

/-- Upper bound on the remaining loop iterations: total remaining in-degree
plus current queue length. -/
def degMeasure (deg : List (String × Nat)) (queue : List String) : Nat :=
  (deg.map (·.2)).sum + queue.length

/-- `topological_sort`: `some order` on success, `none` models the fatal
`sys.exit(1)` on circular dependencies (`len(result) != len(packages_data)`). -/
def topological_sort (pd : PackagesData) : Option (List String) :=
  let deg := initialDeg pd
  let queue := initialQueue pd
  let result := kahnLoopF (adj pd) (degMeasure deg queue) deg queue
  if result.length = pd.length then some result else none

/-- The dependency edge relation of the resolver: `depEdge pd u v` holds when
known package `v` declares a dependency whose canonical name is the known
package `u`. -/
def depEdge (pd : PackagesData) (u v : String) : Prop := v ∈ adj pd u

/-- The list produced by the Kahn loop inside `topological_sort` (before the
length check). -/
def kahnResult (pd : PackagesData) : List String :=
  kahnLoopF (adj pd) (degMeasure (initialDeg pd) (initialQueue pd))
    (initialDeg pd) (initialQueue pd)

/-- Ghost state for the loop invariant of Kahn's algorithm: the in-degree of
`v` remaining once the packages in `done` have been processed — the number of
dependency declarations of `v` whose canonical name is a known package not
yet in `done`. -/
def remDeg (pd : PackagesData) (done : List String) (v : String) : Nat :=
  match List.lookup v pd with
  | none => 0
  | some info =>
    ((depNamesOf info).filter
      (fun d => decide (d ∈ pkgNames pd ∧ d ∉ done))).length

/-- Fixture: two packages, B depending on A (an acyclic chain). -/
def pdChainC1 : PackagesData :=
  [("A", mkPkgInfo "pa" []), ("B", mkPkgInfo "pb" [⟨"A", "v"⟩])]

/-- Fixture: two packages depending on each other (a 2-cycle, no tag
conflict). -/
def pdCycleC3 : PackagesData :=
  [("A", mkPkgInfo "pa" [⟨"B", "v"⟩]), ("B", mkPkgInfo "pb" [⟨"A", "v"⟩])]

/-- Fixture: a 2-cycle between A and B together with a tag conflict on B
(required by A at v1 and by C at v2). -/
def pdConflictCycle : PackagesData :=
  [("A", mkPkgInfo "pa" [⟨"B", "v1"⟩]),
   ("B", mkPkgInfo "pb" [⟨"A", "v1"⟩]),
   ("C", mkPkgInfo "pc" [⟨"B", "v2"⟩])]

/-! ## Resolve-plan emission (`generate_package_resolve_file`, lines 277–401)

The JSON document written to the resolve file, minus the `generated_at`
timestamp (an external clock).  Path resolution (`Path.resolve`) is the
identity on the already-absolute folder strings. -/

/-- One element of an `environment_variables` list in the resolve file.  All
three fields are optional because the orchestrator reads them back with
`dict.get`. -/
structure EnvVarDecl where
  type : Option String
  name : Option String
  value : Option String
deriving DecidableEq

/-- One element of a package's `dependencies` list in the resolve file. -/
structure DepEntry where
  name : String
  git_url : String
  tag : String
deriving DecidableEq

/-- One value of the `packages` map in the resolve file. -/
structure PackageEntry where
  build_index : Nat
  name : String
  description : String
  git_url : Option String
  tag : String
  source_folder : String
  install_folder : String
  build_folder : String
  environment_variables : List EnvVarDecl
  build_commands : List String
  install_commands : List String
  dependencies : List DepEntry
deriving DecidableEq

/-- The resolve-file document (`package.lock.json`). -/
structure ResolvePlan where
  packages_src_folder : String
  packages_install_folder : String
  packages_build_folder : String
  environment_variables : List EnvVarDecl
  install_order : List String
  packages : List (String × PackageEntry)
deriving DecidableEq

/-- `'ARIEO_PACKAGE_' + pkg_name.upper().replace('-', '_')
.replace('ARIEOENGINE_', '').replace('ARIEO_', '')` (line 316). -/
def baseEnvVarName (pkg_name : String) : String :=
  "ARIEO_PACKAGE_" ++
    pyReplace (pyReplace (pyReplace (upperStr pkg_name) "-" "_") "ARIEOENGINE_" "")
      "ARIEO_" ""

/-- Joining a root folder with a package folder name. -/
def joinPath (a b : String) : String := a ++ "/" ++ b

/-- The `package_entry` dict built for one package (lines 309–383). -/
def makePackageEntry (packages_install_folder packages_build_folder : String)
    (idx : Nat) (pkg_name : String) (info : PkgInfo) : PackageEntry :=
  let base := baseEnvVarName pkg_name
  let package_name := match info.arieo with
    | some a => a.name.getD pkg_name
    | none => pkg_name
  let install_folder := joinPath packages_install_folder info.folder_name
  let build_folder := joinPath packages_build_folder info.folder_name
  { build_index := idx
    name := package_name
    description := match info.arieo with | some a => a.description | none => ""
    git_url := info.git_url
    tag := info.tag
    source_folder := info.path
    install_folder := install_folder
    build_folder := build_folder
    environment_variables :=
      [ ⟨some "public", some (base ++ "_INSTALL_FOLDER"), some install_folder⟩,
        ⟨some "private", some (base ++ "_SOURCE_FOLDER"), some info.path⟩,
        ⟨some "private", some (base ++ "_BUILD_FOLDER"), some build_folder⟩,
        ⟨some "private", some "ARIEO_CUR_PACKAGE_SOURCE_FOLDER", some info.path⟩,
        ⟨some "private", some "ARIEO_CUR_PACKAGE_BUILD_FOLDER", some build_folder⟩,
        ⟨some "private", some "ARIEO_CUR_PACKAGE_INSTALL_FOLDER", some install_folder⟩,
        ⟨some "private", some "ARIEO_CUR_PACKAGE_NAME", some package_name⟩ ]
    build_commands := match info.arieo with | some a => a.build_commands | none => []
    install_commands := match info.arieo with | some a => a.install_commands | none => []
    dependencies := (depsOf info).map (fun d =>
      ⟨canonicalDepName d.git_url, d.git_url, d.tag⟩) }

/-- The `for idx, pkg_name in enumerate(install_order, 1)` loop.  In the
source a name missing from `packages_data` raises `KeyError`; that case is
unreachable because the install order is produced by `topological_sort` over
the same dict, and is modelled by skipping the name. -/
def planEntries (pd : PackagesData)
    (packages_install_folder packages_build_folder : String) :
    Nat → List String → List (String × PackageEntry)
  | _, [] => []
  | idx, n :: ns =>
    match List.lookup n pd with
    | some info =>
      let entry := makePackageEntry packages_install_folder packages_build_folder idx n info
      (entry.name, entry) ::
        planEntries pd packages_install_folder packages_build_folder (idx + 1) ns
    | none => planEntries pd packages_install_folder packages_build_folder (idx + 1) ns

/-- The full resolve document assembled by `generate_package_resolve_file`
(without the `generated_at` timestamp). -/
def generate_package_resolve (pd : PackagesData) (install_order : List String)
    (packages_src_folder packages_install_folder packages_build_folder : String) :
    ResolvePlan :=
  let entries := planEntries pd packages_install_folder packages_build_folder 1 install_order
  { packages_src_folder := packages_src_folder
    packages_install_folder := packages_install_folder
    packages_build_folder := packages_build_folder
    environment_variables :=
      [⟨some "public", some "ARIEO_PACKAGE_ROOT_INSTALL_FOLDER", some packages_install_folder⟩]
    install_order := entries.map (·.1)
    packages := entries }

/-- The two fatal failure modes of the resolution pipeline. -/
inductive InitError : Type
  | conflict (conflicts : List (String × List (String × String)))
  | cycle
deriving DecidableEq

/-- The resolution part of `init_all_packages` (lines 498–513): conflict
check, then topological sort, then plan emission; each `sys.exit(1)` is an
`Except.error` and no plan is produced on any failure path. -/
def init_resolve (pd : PackagesData)
    (packages_src_folder packages_install_folder packages_build_folder : String) :
    Except InitError ResolvePlan :=
  match check_dependency_conflicts pd with
  | some cs => Except.error (InitError.conflict cs)
  | none =>
    match topological_sort pd with
    | none => Except.error InitError.cycle
    | some order =>
      Except.ok (generate_package_resolve pd order
        packages_src_folder packages_install_folder packages_build_folder)

/-! ## Orchestrator: environment composition
(`process_packages.py`, `setup_environment` lines 98–132 and
`process_packages_from_resolve` lines 157–235)

Each tier of the composition is a fold that conditionally writes (name,
value) pairs into the environment dict; `applyDecls f` is one such fold, with
`f` extracting the pair from a declaration or skipping it. -/

/-- A fold of conditional dict updates: each declaration either contributes a
(name, value) pair or is skipped. -/
def applyDecls {α : Type} (f : α → Option (String × String))
    (m : List (String × String)) (ds : List α) : List (String × String) :=
  ds.foldl (fun m d =>
    match f d with
    | some kv => dictInsert m kv.1 kv.2
    | none => m) m

/-- Root tier extraction (lines 160–164): `if env_name and env_value` — no
type check at the root level. -/
def rootDeclKV (d : EnvVarDecl) : Option (String × String) :=
  match d.name, d.value with
  | some n, some v => if n ≠ "" ∧ v ≠ "" then some (n, v) else none
  | _, _ => none

/-- Package public tier (lines 195–200):
`if env_type == 'public' and env_name and env_value`, with
`env_var.get('type', 'public')`. -/
def pubDeclKV (d : EnvVarDecl) : Option (String × String) :=
  if d.type.getD "public" = "public" then rootDeclKV d else none

/-- Package private tier (lines 225–231):
`if env_type == 'private' and env_name and env_value`. -/
def privDeclKV (d : EnvVarDecl) : Option (String × String) :=
  if d.type.getD "public" = "private" then rootDeclKV d else none

/-- `root_env_vars` (lines 158–164). -/
def rootEnvVars (plan : ResolvePlan) : List (String × String) :=
  applyDecls rootDeclKV [] plan.environment_variables

/-- `public_env_vars_map` before the caller overrides (lines 190–200): the
root variables, then every package's public variables in map order. -/
def publicEnvVarsMap (plan : ResolvePlan) : List (String × String) :=
  plan.packages.foldl (fun m p => applyDecls pubDeclKV m p.2.environment_variables)
    (rootEnvVars plan)

/-- `public_env_vars_map.update(extra_env_vars)` (lines 202–204). -/
def withExtra (plan : ResolvePlan) (extra : List (String × String)) :
    List (String × String) :=
  applyDecls (fun kv => some kv) (publicEnvVarsMap plan) extra

/-- `package_env_vars_map` for the current package (lines 221–231): all
public variables and overrides, then this package's private variables. -/
def packageEnvVarsMap (plan : ResolvePlan) (extra : List (String × String))
    (pkg : PackageEntry) : List (String × String) :=
  applyDecls privDeclKV (withExtra plan extra) pkg.environment_variables

/-- `setup_environment` (lines 98–132): the inherited process environment,
the three `SOURCE_FOLDER`/`BUILD_FOLDER`/`INSTALL_FOLDER` specials (the last
two skipped when their folder string is empty), then every entry of the
composed map. -/
def setup_environment (inherited : List (String × String))
    (src bld inst : String) (envMap : List (String × String)) :
    List (String × String) :=
  let e := dictInsert inherited "SOURCE_FOLDER" src
  let e := if bld ≠ "" then dictInsert e "BUILD_FOLDER" bld else e
  let e := if inst ≠ "" then dictInsert e "INSTALL_FOLDER" inst else e
  applyDecls (fun kv => some kv) e envMap

/-- The environment composed for one package of the plan by
`process_packages_from_resolve` (lines 206–235). -/
def composeEnv (inherited : List (String × String)) (plan : ResolvePlan)
    (extra : List (String × String)) (pkg : PackageEntry) :
    List (String × String) :=
  setup_environment inherited pkg.source_folder pkg.build_folder pkg.install_folder
    (packageEnvVarsMap plan extra pkg)

/-! ## Orchestrator: execution
(`process_packages.py` lines 206–244 and 418–447, `package/build_package.py`,
`package/install_package.py`)

External command execution is a collaborator, modelled by `exec` mapping the
environment and the expanded command string to the exit status.  A run's
observable behaviour is the ordered trace of executed commands together with
an optional fatal error (the message printed before `sys.exit(1)`). -/

/-- One executed external command: its environment and its expanded text. -/
structure ExecCall where
  env : List (String × String)
  cmd : String
deriving DecidableEq

/-- The per-command loop shared by `build_package` and `install_package`:
run each command of the list in order, expanded against the environment,
stopping at the first non-zero exit status with the message
`✗ <Stage> command failed: <unexpanded command>`. -/
def runCommandList (exec : List (String × String) → String → Nat)
    (stageName : String) (env : List (String × String)) :
    List String → List ExecCall × Option String
  | [] => ([], none)
  | c :: cs =>
    let ec := expandCommand env c
    if exec env ec ≠ 0 then
      ([⟨env, ec⟩], some ("✗ " ++ stageName ++ " command failed: " ++ c))
    else
      let r := runCommandList exec stageName env cs
      (⟨env, ec⟩ :: r.1, r.2)

/-- `build_package` (lines 29–78): an empty command list is a no-op success;
otherwise the `ARIEO_BUILDENV_BUILD_FOLDER` alias is set from
`ARIEO_CUR_PACKAGE_BUILD_FOLDER` when present, and the commands run. -/
def build_package_run (exec : List (String × String) → String → Nat)
    (env : List (String × String)) (build_commands : List String) :
    List ExecCall × Option String :=
  if build_commands.isEmpty then ([], none)
  else
    match List.lookup "ARIEO_CUR_PACKAGE_BUILD_FOLDER" env with
    | some v =>
      runCommandList exec "Build" (dictInsert env "ARIEO_BUILDENV_BUILD_FOLDER" v)
        build_commands
    | none => runCommandList exec "Build" env build_commands

/-- `install_package` (lines 13–74): an empty command list is a no-op
success. -/
def install_package_run (exec : List (String × String) → String → Nat)
    (env : List (String × String)) (install_commands : List String) :
    List ExecCall × Option String :=
  if install_commands.isEmpty then ([], none)
  else runCommandList exec "Install" env install_commands

/-- One package's execution for the selected stage;
`build_and_install` runs build then install back to back (lines 238–244). -/
def processStage (exec : List (String × String) → String → Nat)
    (stage : String) (env : List (String × String)) (pkg : PackageEntry) :
    List ExecCall × Option String :=
  if stage = "build" then build_package_run exec env pkg.build_commands
  else if stage = "install" then install_package_run exec env pkg.install_commands
  else
    match (build_package_run exec env pkg.build_commands).2 with
    | some e => ((build_package_run exec env pkg.build_commands).1, some e)
    | none =>
      ((build_package_run exec env pkg.build_commands).1 ++
        (install_package_run exec env pkg.install_commands).1,
       (install_package_run exec env pkg.install_commands).2)

/-- The package loop of `process_packages_from_resolve` (lines 206–244); a
name missing from the packages map is the fatal `Package not found` exit. -/
def processPackagesLoop (exec : List (String × String) → String → Nat)
    (inherited : List (String × String)) (plan : ResolvePlan)
    (extra : List (String × String)) (stage : String) :
    List String → List ExecCall × Option String
  | [] => ([], none)
  | n :: ns =>
    match List.lookup n plan.packages with
    | none => ([], some ("✗ Error: Package " ++ n ++ " not found in resolve file"))
    | some pkg =>
      match (processStage exec stage (composeEnv inherited plan extra pkg) pkg).2 with
      | some e => ((processStage exec stage (composeEnv inherited plan extra pkg) pkg).1, some e)
      | none =>
        ((processStage exec stage (composeEnv inherited plan extra pkg) pkg).1 ++
          (processPackagesLoop exec inherited plan extra stage ns).1,
         (processPackagesLoop exec inherited plan extra stage ns).2)

/-- The combination loop of `process_packages` (lines 418–447): the filtered
install order is executed once per environment combination; a `sys.exit(1)`
inside any combination aborts the whole run. -/
def processCombos (exec : List (String × String) → String → Nat)
    (inherited : List (String × String)) (plan : ResolvePlan)
    (stage : String) (order : List String) :
    List (List (String × String)) → List ExecCall × Option String
  | [] => ([], none)
  | combo :: cs =>
    match (processPackagesLoop exec inherited plan combo stage order).2 with
    | some e => ((processPackagesLoop exec inherited plan combo stage order).1, some e)
    | none =>
      ((processPackagesLoop exec inherited plan combo stage order).1 ++
        (processCombos exec inherited plan stage order cs).1,
       (processCombos exec inherited plan stage order cs).2)

/-- Fail-fast behaviour of a run result: on success every executed command
exited 0; on failure the trace ends with the failing command — every command
before it exited 0 and nothing after it was executed. -/
def failFast (exec : List (String × String) → String → Nat)
    (r : List ExecCall × Option String) : Prop :=
  (r.2 = none → ∀ t ∈ r.1, exec t.env t.cmd = 0) ∧
  (r.2 ≠ none → ∃ pre last, r.1 = pre ++ [last] ∧ exec last.env last.cmd ≠ 0 ∧
    ∀ t ∈ pre, exec t.env t.cmd = 0)

/-! ## Package filtering and dependency gathering
(`process_packages.py`, `gather_dependencies` lines 26–58 and the filtering
stage, lines 166–188 / 328–351) -/

/-- `add_package_with_deps`, with explicit fuel; `gather_dependencies` calls
it with fuel exceeding the number of packages, which never truncates (the
visited list `res` grows by one known package per recursion level).  Entries
with a missing or empty `name` are skipped (`if dep_name:`). -/
def addPkgF (packages : List (String × PackageEntry)) :
    Nat → String → List String → List String
  | 0, _, res => res
  | f + 1, pkg, res =>
    if pkg ∈ res then res
    else
      match List.lookup pkg packages with
      | none => res
      | some info =>
        ((info.dependencies.map (·.name)).filter (fun d => d ≠ "")).foldl
          (fun r d => addPkgF packages f d r) (res ++ [pkg])

/-- `gather_dependencies(package_names, packages)`: the visited set, in
visit order (the source keeps a Python `set`; only membership is ever
used — the executed order comes from the install order, and the
dependencies-only report is displayed sorted). -/
def gather_dependencies (package_names : List String)
    (packages : List (String × PackageEntry)) : List String :=
  package_names.foldl (fun r s => addPkgF packages (packages.length + 1) s r) []

/-- One step of the dependency relation walked by `gather_dependencies`:
known package `u` declares a dependency entry with the non-empty name `v`. -/
def depStep (packages : List (String × PackageEntry)) (u v : String) : Prop :=
  ∃ info, List.lookup u packages = some info ∧
    v ∈ (info.dependencies.map (·.name)).filter (fun d => d ≠ "")

/-- The number of package keys not yet visited; bounds the recursion depth of
`addPkgF`. -/
def unvisitedCount (packages : List (String × PackageEntry)) (res : List String) : Nat :=
  ((packages.map (·.1)).filter (fun k => decide (k ∉ res))).length

/-- Example fixture: a resolve plan for the dependency chain A → B → C
(C depends on B, which depends on A). -/
def chainPlanABC : ResolvePlan :=
  ⟨"/s", "/i", "/b", [], ["A", "B", "C"],
   [("A", ⟨1, "A", "", none, "t", "/sa", "/ia", "/ba", [], [], [], []⟩),
    ("B", ⟨2, "B", "", none, "t", "/sb", "/ib", "/bb", [], [], [],
      [⟨"A", "uA", "t"⟩]⟩),
    ("C", ⟨3, "C", "", none, "t", "/sc", "/ic", "/bc", [], [], [],
      [⟨"B", "uB", "t"⟩]⟩)]⟩

/-- `install_order.sort(key=...)`: stable ascending sort, insertion-sort
formulation. -/
def stableInsert (key : String → Nat) (x : String) : List String → List String
  | [] => [x]
  | y :: ys => if key y < key x then y :: stableInsert key x ys else x :: y :: ys

def sortByKey (key : String → Nat) (l : List String) : List String :=
  l.foldr (stableInsert key) []

/-- The sort key `packages[pkg_name].get('build_index', 999)` (lines
188/351); a name missing from the map is modelled by the default. -/
def buildIndexKey (plan : ResolvePlan) (n : String) : Nat :=
  match List.lookup n plan.packages with
  | some e => e.build_index
  | none => 999

/-- The unknown-package failure of the filtering stage, carrying the missing
names and (as printed on the `Available:` line) the available set. -/
inductive FilterError : Type
  | unknownPackages (missing : List String) (available : List String)
deriving DecidableEq

/-- The filtering stage shared by `process_packages_from_resolve` and
`prepare_process_packages` (lines 166–188 / 328–351): validate every
requested name, optionally close the filter under dependencies (recording
the names added purely as dependencies — the set difference, which the
source displays sorted), restrict the persisted install order to the
selected set and sort it by build index.  An empty filter list is
Python-falsy and means "no filter". -/
def filterInstallOrder (plan : ResolvePlan) (filt : List String)
    (includeDeps : Bool) : Except FilterError (List String × List String) :=
  if filt.isEmpty then
    Except.ok (sortByKey (buildIndexKey plan) plan.install_order, [])
  else
    let missing := filt.filter (fun p => (List.lookup p plan.packages).isNone)
    if missing.isEmpty then
      let toBuild := if includeDeps then gather_dependencies filt plan.packages else filt
      let depsOnly := toBuild.filter (fun x => !filt.contains x)
      Except.ok
        (sortByKey (buildIndexKey plan)
          (plan.install_order.filter (fun p => toBuild.contains p)),
         depsOnly)
    else Except.error (FilterError.unknownPackages missing (plan.packages.map (·.1)))

/-!
# Theorems

Everything below this point is a theorem about the definitions above.
-/

/-! ### Association-list (Python dict) lemmas -/

theorem lookup_cons_ne {α : Type} {a k : String} (b : α) (es : List (String × α))
    (h : ¬ k = a) : List.lookup k ((a, b) :: es) = List.lookup k es := by
  rw [List.lookup_cons, beq_false_of_ne h]

theorem lookup_map_replace {α : Type} (k : String) (v : α) :
    ∀ (m : List (String × α)) (x : String),
      List.lookup x (m.map (fun p => if p.1 = k then (k, v) else p)) =
        if x = k then (if (List.lookup k m).isSome then some v else none)
        else List.lookup x m := by
  intro m
  induction m with
  | nil => intro x; simp
  | cons p rest ih =>
    obtain ⟨a, b⟩ := p
    intro x
    by_cases hak : a = k
    · subst hak
      have h1 : List.map (fun p => if p.1 = a then (a, v) else p) ((a, b) :: rest)
          = (a, v) :: rest.map (fun p => if p.1 = a then (a, v) else p) := by
        simp
      by_cases hxa : x = a
      · subst hxa
        rw [h1, List.lookup_cons_self, List.lookup_cons_self]
        simp
      · rw [h1, lookup_cons_ne v _ hxa, ih x, lookup_cons_ne b rest hxa,
          if_neg hxa, if_neg hxa]
    · have h1 : List.map (fun p => if p.1 = k then (k, v) else p) ((a, b) :: rest)
          = (a, b) :: rest.map (fun p => if p.1 = k then (k, v) else p) := by
        simp [hak]
      by_cases hxa : x = a
      · subst hxa
        have hxk : ¬ x = k := hak
        rw [h1, List.lookup_cons_self, if_neg hxk, List.lookup_cons_self]
      · rw [h1, lookup_cons_ne b _ hxa, ih x, lookup_cons_ne b rest hxa,
          lookup_cons_ne b rest (fun h : k = a => hak h.symm)]

theorem lookup_dictInsert {α : Type} (m : List (String × α)) (k : String) (v : α)
    (x : String) :
    List.lookup x (dictInsert m k v) = if x = k then some v else List.lookup x m := by
  unfold dictInsert
  cases hs : (List.lookup k m).isSome with
  | true =>
    rw [if_pos rfl, lookup_map_replace, hs]
    by_cases hxk : x = k <;> simp [hxk]
  | false =>
    rw [if_neg (by simp [hs]), List.lookup_append]
    by_cases hxk : x = k
    · subst hxk
      have : List.lookup x m = none := by
        cases h : List.lookup x m with
        | none => rfl
        | some w => rw [h] at hs; simp at hs
      simp [this, List.lookup_cons]
    · simp [List.lookup_cons, beq_false_of_ne hxk, hxk]

theorem lookup_mem {α : Type} {m : List (String × α)} {k : String} {v : α}
    (h : List.lookup k m = some v) : (k, v) ∈ m := by
  induction m with
  | nil => simp at h
  | cons p rest ih =>
    obtain ⟨a, b⟩ := p
    rw [List.lookup_cons] at h
    by_cases hk : k = a
    · subst hk
      simp only [beq_self_eq_true] at h
      have : b = v := by simpa using h
      subst this
      exact List.mem_cons_self _ _
    · rw [beq_false_of_ne hk] at h
      exact List.mem_cons_of_mem _ (ih h)

theorem lookup_isSome_iff_mem_keys {α : Type} (m : List (String × α)) (k : String) :
    (List.lookup k m).isSome = true ↔ k ∈ m.map (·.1) := by
  rw [List.lookup_isSome_iff]
  constructor
  · rintro ⟨p, hp, hk⟩
    exact List.mem_map.mpr ⟨p, hp, (by simpa using hk : k = p.1).symm⟩
  · rintro h
    rcases List.mem_map.mp h with ⟨p, hp, hk⟩
    exact ⟨p, hp, by simp [hk.symm]⟩


/-! ### String-replacement lemmas -/

theorem replaceAllF_of_not_occurs {pat rep : List Char} :
    ∀ (f : Nat) (s : List Char), ¬ occursIn s pat → replaceAllF pat rep f s = s := by
  intro f
  induction f with
  | zero => intro s _; rfl
  | succ f ih =>
    intro s hno
    match s with
    | [] => rfl
    | c :: rest =>
      rw [replaceAllF]
      have hnp : ¬ (pat ≠ [] ∧ pat.isPrefixOf (c :: rest)) := by
        rintro ⟨-, hpre⟩
        obtain ⟨r, hr⟩ := List.isPrefixOf_iff_prefix.mp hpre
        exact hno ⟨[], r, by simp [← hr]⟩
      rw [if_neg hnp]
      have : ¬ occursIn rest pat := by
        rintro ⟨l, r, hlr⟩
        exact hno ⟨c :: l, r, by simp [hlr]⟩
      rw [ih rest this]

theorem pyReplace_of_not_occurs {s pat rep : String}
    (h : ¬ occursIn s.data pat.data) : pyReplace s pat rep = s := by
  unfold pyReplace
  rw [replaceAllF_of_not_occurs _ _ h]

theorem containsSub_iff_occursIn (s pat : String) :
    containsSub s pat = true ↔ occursIn s.data pat.data := by
  unfold containsSub
  simp only [List.any_eq_true, List.mem_range]
  constructor
  · rintro ⟨i, -, hpre⟩
    obtain ⟨r, hr⟩ := List.isPrefixOf_iff_prefix.mp hpre
    refine ⟨s.data.take i, r, ?_⟩
    conv_lhs => rw [← List.take_append_drop i s.data]
    rw [← hr, List.append_assoc]
  · rintro ⟨l, r, hlr⟩
    refine ⟨l.length, ?_, ?_⟩
    · have : s.data.length = l.length + (pat.data.length + r.length) := by
        rw [hlr]; simp
      omega
    · rw [hlr, List.append_assoc, List.drop_left]
      simp [List.isPrefixOf_iff_prefix]


/-! ### Lemmas about the combination generator -/

theorem appendMissing_eq_append_filter :
    ∀ (vs : List String) (init : List String), vs.Nodup →
      appendMissing init vs = init ++ vs.filter (fun v => !init.contains v) := by
  intro vs
  induction vs with
  | nil => intro init _; simp [appendMissing]
  | cons v rest ih =>
    intro init hnd
    have hndr : rest.Nodup := (List.nodup_cons.mp hnd).2
    have hvr : v ∉ rest := (List.nodup_cons.mp hnd).1
    by_cases hv : v ∈ init
    · have hc : init.contains v = true := by simpa using hv
      unfold appendMissing
      rw [List.foldl_cons, if_pos hc]
      rw [show List.foldl (fun acc v => if acc.contains v then acc else acc ++ [v]) init rest
            = appendMissing init rest from rfl,
        ih init hndr]
      simp [List.filter_cons, hv]
    · have hc : init.contains v = false := by simpa using hv
      unfold appendMissing
      rw [List.foldl_cons, if_neg (by simpa using hv)]
      rw [show List.foldl (fun acc v => if acc.contains v then acc else acc ++ [v])
            (init ++ [v]) rest = appendMissing (init ++ [v]) rest from rfl,
        ih (init ++ [v]) hndr]
      have hfeq : rest.filter (fun x => !(init ++ [v]).contains x)
          = rest.filter (fun x => !init.contains x) := by
        apply List.filter_congr
        intro x hx
        have hxv : ¬ x = v := fun h => hvr (h ▸ hx)
        simp [List.contains_eq_any_beq, beq_false_of_ne hxv]
        exact fun _ => hxv
      rw [hfeq, List.filter_cons, hc]
      simp

theorem sortBuildTypes_spec (key : String) (vs : List String)
    (hkey : containsSub (upperStr key) "BUILD_TYPE" = true) (hnd : vs.Nodup) :
    sortBuildTypes key vs =
      build_type_order.filter (fun bt => vs.contains bt) ++
        vs.filter (fun v => !build_type_order.contains v) := by
  unfold sortBuildTypes
  rw [if_pos hkey, appendMissing_eq_append_filter vs _ hnd]
  congr 1
  apply List.filter_congr
  intro v hv
  have hvs : vs.contains v = true := by simpa using hv
  by_cases hb : v ∈ build_type_order
  · have h1 : build_type_order.contains v = true := by simpa using hb
    have h2 : (build_type_order.filter (fun bt => vs.contains bt)).contains v = true := by
      have : v ∈ build_type_order.filter (fun bt => vs.contains bt) :=
        List.mem_filter.mpr ⟨hb, hvs⟩
      simpa using this
    rw [h1, h2]
  · have h1 : build_type_order.contains v = false := by simpa using hb
    have h2 : (build_type_order.filter (fun bt => vs.contains bt)).contains v = false := by
      have : v ∉ build_type_order.filter (fun bt => vs.contains bt) := by
        intro hmem
        exact hb (List.mem_filter.mp hmem).1
      simpa using this
    rw [h1, h2]

theorem multiValueVars_eq_nil_of_all_single {l : List (String × EnvVal)}
    (h : ∀ p ∈ l, ∃ v, p.2 = EnvVal.single v) : multiValueVars l = [] := by
  unfold multiValueVars
  rw [List.filterMap_eq_nil_iff]
  intro p hp
  rcases h p hp with ⟨v, hv⟩
  rw [hv]

theorem cartProd_length (ls : List (List String)) :
    (cartProd ls).length = (ls.map List.length).prod := by
  induction ls with
  | nil => simp [cartProd]
  | cons vs rest ih =>
    simp only [cartProd, List.length_flatMap, List.map_map, List.map_cons, List.prod_cons]
    have : (fun v => ((cartProd rest).map (fun c => v :: c)).length) ∘ id
        = fun _ : String => (cartProd rest).length := by
      funext v; simp
    simp only [Function.comp_def, List.length_map]
    rw [List.map_const', List.sum_replicate, smul_eq_mul, ih]

/-! ### Claim C6 -/

/-- C6: `generate_env_combinations` maps `{}` to exactly one empty map, maps an
override set with only single-valued entries to exactly that one map, and
otherwise produces the cartesian product of the multi-valued entries in
declared key order with each list's element order preserved (so the example
`{A: "1", B: [x, y]}` yields `[{A:1,B:x}, {A:1,B:y}]` in that order, and the
number of combinations is the product of the value-list lengths), except that
a key whose name contains `BUILD_TYPE` case-insensitively has its value list
reordered to Release, RelWithDebInfo, Debug, MinSizeRel with the remaining
values appended afterwards in their original order. -/
theorem c6_generate_env_combinations_spec :
    generate_env_combinations [] = [[]] ∧
    (∀ l : List (String × EnvVal), (∀ p ∈ l, ∃ v, p.2 = EnvVal.single v) →
      generate_env_combinations l = [singleValueVars l]) ∧
    generate_env_combinations [("A", EnvVal.single "1"), ("B", EnvVal.multi ["x", "y"])] =
      [[("A", "1"), ("B", "x")], [("A", "1"), ("B", "y")]] ∧
    (∀ key vs, containsSub (upperStr key) "BUILD_TYPE" = true → vs.Nodup →
      sortBuildTypes key vs =
        build_type_order.filter (fun bt => vs.contains bt) ++
          vs.filter (fun v => !build_type_order.contains v)) ∧
    generate_env_combinations [("MY_BUILD_TYPE", EnvVal.multi ["Debug", "Release"])] =
      [[("MY_BUILD_TYPE", "Release")], [("MY_BUILD_TYPE", "Debug")]] ∧
    (∀ l : List (String × EnvVal), (multiValueVars l).isEmpty = false →
      (generate_env_combinations l).length =
        ((multiValueVars l).map (fun p => p.2.length)).prod) := by
  refine ⟨by decide, ?_, by decide, sortBuildTypes_spec, by decide, ?_⟩
  · intro l hl
    by_cases hnil : l.isEmpty
    · have : l = [] := by simpa using hnil
      subst this
      decide
    · unfold generate_env_combinations
      rw [if_neg hnil, multiValueVars_eq_nil_of_all_single hl]
      simp
  · intro l hm
    have hne : l.isEmpty = false := by
      cases l with
      | nil => simp [multiValueVars] at hm
      | cons p rest => simp
    unfold generate_env_combinations
    rw [hne]
    simp only [Bool.false_eq_true, if_false, hm, List.length_map]
    rw [cartProd_length, List.map_map]
    rfl

/-- C6 witness: the single-valued-only clause and the BUILD_TYPE reordering
clause of `c6_generate_env_combinations_spec` at concrete inputs. -/
theorem c6_generate_env_combinations_spec_witness :
    generate_env_combinations [("A", EnvVal.single "1")] = [[("A", "1")]] ∧
    sortBuildTypes "CMAKE_BUILD_TYPE" ["Debug", "Custom", "Release"] =
      ["Release", "Debug", "Custom"] := by
  constructor
  · have h := c6_generate_env_combinations_spec.2.1 [("A", EnvVal.single "1")]
      (by rintro p hp
          rw [List.mem_singleton] at hp
          subst hp
          exact ⟨"1", rfl⟩)
    exact h.trans (by decide)
  · have h := c6_generate_env_combinations_spec.2.2.2.1 "CMAKE_BUILD_TYPE"
      ["Debug", "Custom", "Release"] (by decide) (by decide)
    exact h.trans (by decide)

/-! ### Claim C7 -/

/-- C7 counterexample: with `FOO` listed before `FOOBAR` in the environment,
the plain `$FOO` rewrite fires inside the `$FOOBAR` token, so the expansion of
`"echo $FOOBAR"` is `"echo barBAR"`, not the claimed partial-match-free
`"echo baz"`.  The claim that a variable `FOO` never rewrites part of a
`$FOOBAR` token is therefore false of the code. -/
theorem c7_counterexample :
    expandCommand [("FOO", "bar"), ("FOOBAR", "baz")] "echo $FOOBAR" = "echo barBAR" ∧
    expandCommand [("FOO", "bar"), ("FOOBAR", "baz")] "echo $FOOBAR" ≠ "echo baz" :=
  ⟨by decide, by decide⟩

/-- C7 (amended): every occurrence of `$ENV{NAME}`, `${NAME}` and `$NAME` is
textually substituted by iterating over the environment entries in mapping
order, longest form first for each single entry; the spec's example
`"echo $ENV{FOO} ${FOO} $FOO"` with `FOO=bar` expands to `"echo bar bar bar"`;
and a command in which no environment entry's token occurs at all — in
particular one whose `$`-tokens all refer to names absent from the
environment and not extending a present name — is left verbatim. -/
theorem c7_expand_amended :
    expandCommand [("FOO", "bar")] "echo $ENV\x7bFOO\x7d $\x7bFOO\x7d $FOO" =
      "echo bar bar bar" ∧
    (∀ env cmd, (∀ kv ∈ env,
        ¬ occursIn cmd.data ("$ENV\x7b" ++ kv.1 ++ "\x7d").data ∧
        ¬ occursIn cmd.data ("$\x7b" ++ kv.1 ++ "\x7d").data ∧
        ¬ occursIn cmd.data ("$" ++ kv.1).data) →
      expandCommand env cmd = cmd) := by
  constructor
  · decide
  · intro env cmd h
    unfold expandCommand
    induction env with
    | nil => rfl
    | cons kv rest ih =>
      rw [List.foldl_cons]
      rcases h kv (List.mem_cons_self _ _) with ⟨h1, h2, h3⟩
      rw [pyReplace_of_not_occurs h1, pyReplace_of_not_occurs h2, pyReplace_of_not_occurs h3]
      exact ih (fun kv' hkv' => h kv' (List.mem_cons_of_mem _ hkv'))

/-- C7 witness: the verbatim clause of `c7_expand_amended` at a concrete
command mentioning no resolvable token. -/
theorem c7_expand_amended_witness :
    expandCommand [("FOO", "bar")] "echo hello" = "echo hello" := by
  apply c7_expand_amended.2
  rintro kv hkv
  rw [List.mem_singleton] at hkv
  subst hkv
  refine ⟨?_, ?_, ?_⟩ <;>
  · intro ho
    have hc := (containsSub_iff_occursIn _ _).mpr ho
    revert hc
    decide

/-! ### Conflict-detection lemmas (for claim C2) -/

theorem reqLookup_reqInsert (reqs : List (String × List (String × String)))
    (Dn Pn t D P : String) :
    reqLookup (reqInsert reqs Dn Pn t) D P =
      if D = Dn ∧ P = Pn then some t else reqLookup reqs D P := by
  unfold reqInsert reqLookup
  by_cases hD : D = Dn
  · subst hD
    rw [lookup_dictInsert, if_pos rfl, Option.getD_some, lookup_dictInsert]
    by_cases hP : P = Pn
    · rw [if_pos hP, if_pos ⟨rfl, hP⟩]
    · rw [if_neg hP, if_neg (fun h => hP h.2)]
  · rw [lookup_dictInsert, if_neg hD, if_neg (fun h => hD h.1)]

theorem reqLookup_depsFold (P₀ : String) :
    ∀ (deps : List DepDecl) (reqs : List (String × List (String × String))) (D P : String),
      reqLookup (deps.foldl (fun r dep =>
          reqInsert r (canonicalDepName dep.git_url) P₀ dep.tag) reqs) D P =
        if P = P₀ then
          match lastTagOf deps D with
          | some t => some t
          | none => reqLookup reqs D P
        else reqLookup reqs D P := by
  intro deps
  induction deps with
  | nil =>
    intro reqs D P
    by_cases h : P = P₀ <;> simp [h, lastTagOf]
  | cons d rest ih =>
    intro reqs D P
    rw [List.foldl_cons, ih]
    have hunf : lastTagOf (d :: rest) D =
        (match lastTagOf rest D with
         | some t => some t
         | none => if canonicalDepName d.git_url = D then some d.tag else none) := rfl
    rw [hunf]
    by_cases hP : P = P₀
    · subst hP
      rw [if_pos rfl, if_pos rfl]
      cases hrest : lastTagOf rest D with
      | some t => rfl
      | none =>
        rw [reqLookup_reqInsert]
        by_cases hD : canonicalDepName d.git_url = D
        · rw [if_pos ⟨hD.symm, rfl⟩, if_pos hD]
        · rw [if_neg (fun h => hD h.1.symm), if_neg hD]
    · rw [if_neg hP, if_neg hP, reqLookup_reqInsert, if_neg (fun h => hP h.2)]

theorem reqLookup_pkgsFold :
    ∀ (l : PackagesData) (reqs : List (String × List (String × String))),
      (∀ p ∈ l, ∀ D, reqLookup reqs D p.1 = none) →
      (l.map (·.1)).Nodup →
      (∀ D P info, List.lookup P l = some info →
        reqLookup (l.foldl (fun reqs p =>
            (depsOf p.2).foldl (fun r dep =>
              reqInsert r (canonicalDepName dep.git_url) p.1 dep.tag) reqs) reqs) D P =
          lastTagOf (depsOf info) D) ∧
      (∀ D P, List.lookup P l = none →
        reqLookup (l.foldl (fun reqs p =>
            (depsOf p.2).foldl (fun r dep =>
              reqInsert r (canonicalDepName dep.git_url) p.1 dep.tag) reqs) reqs) D P =
          reqLookup reqs D P) := by
  intro l
  induction l with
  | nil =>
    intro reqs _ _
    exact ⟨fun D P info h => by simp at h, fun D P _ => rfl⟩
  | cons q rest ih =>
    obtain ⟨P₀, i₀⟩ := q
    intro reqs hnone hnd
    have hnd' : (rest.map (·.1)).Nodup := (List.nodup_cons.mp hnd).2
    have hP₀ : P₀ ∉ rest.map (·.1) := (List.nodup_cons.mp hnd).1
    have hnone' : ∀ p ∈ rest, ∀ D,
        reqLookup ((depsOf i₀).foldl (fun r dep =>
          reqInsert r (canonicalDepName dep.git_url) P₀ dep.tag) reqs) D p.1 = none := by
      intro p hp D
      rw [reqLookup_depsFold, if_neg ?_]
      · exact hnone p (List.mem_cons_of_mem _ hp) D
      · intro h
        exact hP₀ (h ▸ List.mem_map.mpr ⟨p, hp, rfl⟩)
    obtain ⟨ihA, ihB⟩ := ih _ hnone' hnd'
    constructor
    · intro D P info hlook
      rw [List.foldl_cons]
      by_cases hP : P = P₀
      · subst hP
        have hlr : List.lookup P rest = none := by
          cases h : List.lookup P rest with
          | none => rfl
          | some w =>
            exact absurd ((lookup_isSome_iff_mem_keys rest P).mp (by simp [h])) hP₀
        have hinfo : info = i₀ := by
          rw [List.lookup_cons_self] at hlook
          exact (Option.some.injEq _ _ ▸ hlook).symm
        subst hinfo
        rw [ihB D P hlr, reqLookup_depsFold, if_pos rfl]
        cases hlt : lastTagOf (depsOf info) D with
        | some t => rfl
        | none => exact hnone (P, info) (List.mem_cons_self _ _) D
      · rw [lookup_cons_ne i₀ rest hP] at hlook
        exact ihA D P info hlook
    · intro D P hlook
      rw [List.foldl_cons]
      have hP : ¬ P = P₀ := by
        intro h
        subst h
        rw [List.lookup_cons_self] at hlook
        simp at hlook
      rw [lookup_cons_ne i₀ rest hP] at hlook
      rw [ihB D P hlook, reqLookup_depsFold, if_neg hP]

theorem depRequirements_reqLookup (pd : PackagesData)
    (hnd : (pkgNames pd).Nodup) {D P : String} {info : PkgInfo}
    (h : List.lookup P pd = some info) :
    reqLookup (depRequirements pd) D P = lastTagOf (depsOf info) D := by
  unfold depRequirements
  exact (reqLookup_pkgsFold pd [] (fun _ _ _ => rfl) hnd).1 D P info h

theorem one_lt_length_dedup {l : List String} {a b : String}
    (ha : a ∈ l) (hb : b ∈ l) (hab : a ≠ b) : 1 < l.dedup.length := by
  have ha' : a ∈ l.dedup := List.mem_dedup.mpr ha
  have hb' : b ∈ l.dedup := List.mem_dedup.mpr hb
  match h : l.dedup with
  | [] => rw [h] at ha'; simp at ha'
  | [x] =>
    rw [h] at ha' hb'
    rw [List.mem_singleton] at ha' hb'
    exact absurd (ha'.trans hb'.symm) hab
  | x :: y :: ys => simp

/-! ### Claim C2 -/

/-- C2 counterexample: dependent `A` declares dependency `D` first with tag
`v1` and then with tag `v2`, dependent `B` declares `D` with tag `v2`.  Two
dependents (`A` and `B`) thus declare different tags (`v1` vs `v2`) for the
same canonical dependency name, yet `check_dependency_conflicts` reports no
conflict, because within one dependent a later declaration of the same
dependency overwrites the earlier one in the requirements dict. -/
theorem c2_counterexample :
    check_dependency_conflicts
        [("A", mkPkgInfo "/s/A" [⟨"D", "v1"⟩, ⟨"D", "v2"⟩]),
         ("B", mkPkgInfo "/s/B" [⟨"D", "v2"⟩])] = none ∧
    (⟨"D", "v1"⟩ : DepDecl) ∈ depsOf (mkPkgInfo "/s/A" [⟨"D", "v1"⟩, ⟨"D", "v2"⟩]) ∧
    (⟨"D", "v2"⟩ : DepDecl) ∈ depsOf (mkPkgInfo "/s/B" [⟨"D", "v2"⟩]) ∧
    canonicalDepName "D" = "D" ∧ ("v1" : String) ≠ "v2" :=
  ⟨by decide, by decide, by decide, by decide, by decide⟩

/-- C2 (amended): taking, for each dependent, the *last* tag it declares for
a given canonical dependency name (a dependent's later declarations of the
same name overwrite its earlier ones), if two distinct dependents' recorded
tags for the same dependency name differ, `check_dependency_conflicts` fails
with the conflict report, and the report names that dependency together with
both (dependent, recorded tag) pairs — the conflict is never silently
resolved. -/
theorem c2_conflict_detection (pd : PackagesData) (hnd : (pkgNames pd).Nodup)
    (A B D t1 t2 : String) (_hAB : A ≠ B) (ht : t1 ≠ t2)
    (infoA infoB : PkgInfo)
    (hA : List.lookup A pd = some infoA) (hA1 : lastTagOf (depsOf infoA) D = some t1)
    (hB : List.lookup B pd = some infoB) (hB1 : lastTagOf (depsOf infoB) D = some t2) :
    ∃ reqs, check_dependency_conflicts pd = some (conflictEntries pd) ∧
      (D, reqs) ∈ conflictEntries pd ∧ (A, t1) ∈ reqs ∧ (B, t2) ∈ reqs := by
  have hrA : reqLookup (depRequirements pd) D A = some t1 :=
    (depRequirements_reqLookup pd hnd hA).trans hA1
  have hrB : reqLookup (depRequirements pd) D B = some t2 :=
    (depRequirements_reqLookup pd hnd hB).trans hB1
  obtain ⟨reqs, hreqs⟩ : ∃ reqs, List.lookup D (depRequirements pd) = some reqs := by
    cases h : List.lookup D (depRequirements pd) with
    | some reqs => exact ⟨reqs, rfl⟩
    | none =>
      unfold reqLookup at hrA
      rw [h] at hrA
      simp at hrA
  unfold reqLookup at hrA hrB
  rw [hreqs] at hrA hrB
  simp only [Option.getD_some] at hrA hrB
  have hmA : (A, t1) ∈ reqs := lookup_mem hrA
  have hmB : (B, t2) ∈ reqs := lookup_mem hrB
  have hconf : (D, reqs) ∈ conflictEntries pd := by
    apply List.mem_filter.mpr
    refine ⟨lookup_mem hreqs, ?_⟩
    have h1 : t1 ∈ reqs.map (·.2) := List.mem_map.mpr ⟨(A, t1), hmA, rfl⟩
    have h2 : t2 ∈ reqs.map (·.2) := List.mem_map.mpr ⟨(B, t2), hmB, rfl⟩
    exact decide_eq_true (one_lt_length_dedup h1 h2 ht)
  refine ⟨reqs, ?_, hconf, hmA, hmB⟩
  unfold check_dependency_conflicts
  rw [if_neg ?_]
  intro h
  rw [List.isEmpty_iff] at h
  rw [h] at hconf
  simp at hconf

/-- C2 witness: `c2_conflict_detection` at a two-package example where `A`
requires `D@v1` and `B` requires `D@v2`. -/
theorem c2_conflict_detection_witness :
    ∃ reqs,
      check_dependency_conflicts
          [("A", mkPkgInfo "/s/A" [⟨"D", "v1"⟩]), ("B", mkPkgInfo "/s/B" [⟨"D", "v2"⟩])] =
        some (conflictEntries
          [("A", mkPkgInfo "/s/A" [⟨"D", "v1"⟩]), ("B", mkPkgInfo "/s/B" [⟨"D", "v2"⟩])]) ∧
      ("D", reqs) ∈ conflictEntries
          [("A", mkPkgInfo "/s/A" [⟨"D", "v1"⟩]), ("B", mkPkgInfo "/s/B" [⟨"D", "v2"⟩])] ∧
      ("A", "v1") ∈ reqs ∧ ("B", "v2") ∈ reqs :=
  c2_conflict_detection _ (by decide) "A" "B" "D" "v1" "v2" (by decide) (by decide)
    (mkPkgInfo "/s/A" [⟨"D", "v1"⟩]) (mkPkgInfo "/s/B" [⟨"D", "v2"⟩])
    (by decide) (by decide) (by decide) (by decide)

/-! ### Claim C4 -/

theorem planEntries_mem {pd : PackagesData} {instF bldF : String} :
    ∀ (order : List String) (idx : Nat) (e : String × PackageEntry),
      e ∈ planEntries pd instF bldF idx order →
      ∃ (j : Nat) (n : String) (info : PkgInfo), List.lookup n pd = some info ∧
        e = ((makePackageEntry instF bldF j n info).name,
             makePackageEntry instF bldF j n info) := by
  intro order
  induction order with
  | nil =>
    intro idx e h
    simp [planEntries] at h
  | cons n ns ih =>
    intro idx e h
    rw [planEntries] at h
    cases hl : List.lookup n pd with
    | some info =>
      rw [hl] at h
      rcases List.mem_cons.mp h with h1 | h2
      · exact ⟨idx, n, info, hl, h1⟩
      · exact ih (idx + 1) e h2
    | none =>
      rw [hl] at h
      exact ih (idx + 1) e h

/-- C4 counterexample: for the package named `Arieo-Core`, the emitted folder
variables are named from `ARIEO_PACKAGE_CORE`, not from the claimed pure
upper-snake form `ARIEO_PACKAGE_ARIEO_CORE` — the source additionally removes
every occurrence of `ARIEOENGINE_` and then `ARIEO_` from the upper-snake
name, so "nothing else removed" is false of the code. -/
theorem c4_counterexample :
    ((makePackageEntry "/inst" "/bld" 1 "Arieo-Core"
        (mkPkgInfo "/src/Arieo-Core" [])).environment_variables.map (fun d => d.name)) =
      [some "ARIEO_PACKAGE_CORE_INSTALL_FOLDER",
       some "ARIEO_PACKAGE_CORE_SOURCE_FOLDER",
       some "ARIEO_PACKAGE_CORE_BUILD_FOLDER",
       some "ARIEO_CUR_PACKAGE_SOURCE_FOLDER",
       some "ARIEO_CUR_PACKAGE_BUILD_FOLDER",
       some "ARIEO_CUR_PACKAGE_INSTALL_FOLDER",
       some "ARIEO_CUR_PACKAGE_NAME"] ∧
    baseEnvVarName "Arieo-Core" = "ARIEO_PACKAGE_CORE" ∧
    "ARIEO_PACKAGE_CORE" ≠
      "ARIEO_PACKAGE_" ++ pyReplace (upperStr "Arieo-Core") "-" "_" :=
  ⟨by decide, by decide, by decide⟩

/-- C4 (amended): every package entry of the emitted resolve plan carries
exactly seven environment-variable declarations: a public
`ARIEO_PACKAGE_<X>_INSTALL_FOLDER` and private `ARIEO_PACKAGE_<X>_SOURCE_FOLDER`
and `ARIEO_PACKAGE_<X>_BUILD_FOLDER`, where `<X>` is the package name
upper-cased with `-` replaced by `_` and every occurrence of `ARIEOENGINE_`
and then of `ARIEO_` removed, followed by the four
`ARIEO_CUR_PACKAGE_{SOURCE,BUILD,INSTALL}_FOLDER` / `ARIEO_CUR_PACKAGE_NAME`
aliases, all set as private variables for the package being processed. -/
theorem c4_env_var_naming (pd : PackagesData) (order : List String)
    (srcF instF bldF : String) :
    ∀ e ∈ (generate_package_resolve pd order srcF instF bldF).packages,
      ∃ (pkg_name : String) (info : PkgInfo), List.lookup pkg_name pd = some info ∧
        e.2.environment_variables.map (fun d => (d.type, d.name)) =
          [(some "public", some (baseEnvVarName pkg_name ++ "_INSTALL_FOLDER")),
           (some "private", some (baseEnvVarName pkg_name ++ "_SOURCE_FOLDER")),
           (some "private", some (baseEnvVarName pkg_name ++ "_BUILD_FOLDER")),
           (some "private", some "ARIEO_CUR_PACKAGE_SOURCE_FOLDER"),
           (some "private", some "ARIEO_CUR_PACKAGE_BUILD_FOLDER"),
           (some "private", some "ARIEO_CUR_PACKAGE_INSTALL_FOLDER"),
           (some "private", some "ARIEO_CUR_PACKAGE_NAME")] ∧
        baseEnvVarName pkg_name =
          "ARIEO_PACKAGE_" ++
            pyReplace (pyReplace (pyReplace (upperStr pkg_name) "-" "_")
              "ARIEOENGINE_" "") "ARIEO_" "" := by
  intro e he
  have he' : e ∈ planEntries pd instF bldF 1 order := he
  obtain ⟨j, n, info, hl, hee⟩ := planEntries_mem order 1 e he'
  subst hee
  exact ⟨n, info, hl, by simp [makePackageEntry], rfl⟩

/-- C4 witness: `c4_env_var_naming` at a concrete one-package plan. -/
theorem c4_env_var_naming_witness :
    ∃ (pkg_name : String) (info : PkgInfo),
      List.lookup pkg_name [("Arieo-Core", mkPkgInfo "/s" [])] = some info ∧
      (("Arieo-Core", makePackageEntry "/inst" "/bld" 1 "Arieo-Core"
          (mkPkgInfo "/s" [])) : String × PackageEntry).2.environment_variables.map
          (fun d => (d.type, d.name)) =
        [(some "public", some (baseEnvVarName pkg_name ++ "_INSTALL_FOLDER")),
         (some "private", some (baseEnvVarName pkg_name ++ "_SOURCE_FOLDER")),
         (some "private", some (baseEnvVarName pkg_name ++ "_BUILD_FOLDER")),
         (some "private", some "ARIEO_CUR_PACKAGE_SOURCE_FOLDER"),
         (some "private", some "ARIEO_CUR_PACKAGE_BUILD_FOLDER"),
         (some "private", some "ARIEO_CUR_PACKAGE_INSTALL_FOLDER"),
         (some "private", some "ARIEO_CUR_PACKAGE_NAME")] ∧
      baseEnvVarName pkg_name =
        "ARIEO_PACKAGE_" ++
          pyReplace (pyReplace (pyReplace (upperStr pkg_name) "-" "_")
            "ARIEOENGINE_" "") "ARIEO_" "" :=
  c4_env_var_naming [("Arieo-Core", mkPkgInfo "/s" [])] ["Arieo-Core"] "/src" "/inst" "/bld"
    ("Arieo-Core", makePackageEntry "/inst" "/bld" 1 "Arieo-Core" (mkPkgInfo "/s" []))
    (by decide)

/-! ### Environment-composition lemmas (for claims C5 and C10) -/

theorem applyDecls_append {α : Type} (f : α → Option (String × String))
    (m : List (String × String)) (a b : List α) :
    applyDecls f m (a ++ b) = applyDecls f (applyDecls f m a) b := by
  unfold applyDecls
  rw [List.foldl_append]

theorem publicEnvVarsMap_eq_flatMap (plan : ResolvePlan) :
    publicEnvVarsMap plan =
      applyDecls pubDeclKV (rootEnvVars plan)
        (plan.packages.flatMap (·.2.environment_variables)) := by
  unfold publicEnvVarsMap
  generalize rootEnvVars plan = m
  induction plan.packages generalizing m with
  | nil => rfl
  | cons p rest ih =>
    rw [List.foldl_cons, List.flatMap_cons, applyDecls_append]
    exact ih _

theorem applyDecls_lookup_of_no_hit {α : Type} {f : α → Option (String × String)}
    {X : String} :
    ∀ {ds : List α} {m : List (String × String)},
      (∀ d ∈ ds, ∀ v, f d ≠ some (X, v)) →
      List.lookup X (applyDecls f m ds) = List.lookup X m := by
  intro ds
  induction ds with
  | nil => intro m _; rfl
  | cons d rest ih =>
    intro m hno
    unfold applyDecls
    rw [List.foldl_cons]
    cases hf : f d with
    | none => exact ih (fun d' hd' => hno d' (List.mem_cons_of_mem _ hd'))
    | some kv =>
      have hk : kv.1 ≠ X := by
        intro h
        exact hno d (List.mem_cons_self _ _) kv.2 (by rw [hf, ← h])
      have := ih (m := dictInsert m kv.1 kv.2)
        (fun d' hd' => hno d' (List.mem_cons_of_mem _ hd'))
      unfold applyDecls at this
      rw [this, lookup_dictInsert, if_neg (fun h => hk h.symm)]

theorem applyDecls_lookup_of_hit {α : Type} {f : α → Option (String × String)}
    {X c : String} :
    ∀ {ds : List α} {m : List (String × String)},
      (∀ d ∈ ds, ∀ v, f d = some (X, v) → v = c) →
      (∃ d ∈ ds, f d = some (X, c)) →
      List.lookup X (applyDecls f m ds) = some c := by
  intro ds
  induction ds with
  | nil =>
    intro m _ hex
    rcases hex with ⟨d, hd, -⟩
    simp at hd
  | cons d rest ih =>
    intro m hall hex
    unfold applyDecls
    rw [List.foldl_cons]
    by_cases hrest : ∃ d' ∈ rest, f d' = some (X, c)
    · cases hf : f d with
      | none => exact ih (fun d' hd' => hall d' (List.mem_cons_of_mem _ hd')) hrest
      | some kv => exact ih (fun d' hd' => hall d' (List.mem_cons_of_mem _ hd')) hrest
    · have hd : f d = some (X, c) := by
        rcases hex with ⟨d', hd', hf'⟩
        rcases List.mem_cons.mp hd' with rfl | hmem
        · exact hf'
        · exact absurd ⟨d', hmem, hf'⟩ hrest
      rw [hd]
      have hno : ∀ d' ∈ rest, ∀ v, f d' ≠ some (X, v) := by
        intro d' hd' v hf'
        have : v = c := hall d' (List.mem_cons_of_mem _ hd') v hf'
        subst this
        exact hrest ⟨d', hd', hf'⟩
      have := applyDecls_lookup_of_no_hit (m := dictInsert m X c) hno
      unfold applyDecls at this
      rw [this, lookup_dictInsert, if_pos rfl]

theorem applyDecls_lookup_cases {α : Type} {f : α → Option (String × String)}
    {X c : String} {ds : List α} {m : List (String × String)}
    (hall : ∀ d ∈ ds, ∀ v, f d = some (X, v) → v = c) :
    List.lookup X (applyDecls f m ds) = some c ∨
      List.lookup X (applyDecls f m ds) = List.lookup X m := by
  by_cases hex : ∃ d ∈ ds, f d = some (X, c)
  · exact Or.inl (applyDecls_lookup_of_hit hall hex)
  · refine Or.inr (applyDecls_lookup_of_no_hit ?_)
    intro d hd v hf
    have : v = c := hall d hd v hf
    subst this
    exact hex ⟨d, hd, hf⟩

theorem keys_dictInsert {α : Type} (m : List (String × α)) (k : String) (v : α)
    (h : (m.map (·.1)).Nodup) : ((dictInsert m k v).map (·.1)).Nodup := by
  unfold dictInsert
  cases hs : (List.lookup k m).isSome with
  | true =>
    rw [if_pos (by simp [hs])]
    have : (m.map (fun p => if p.1 = k then (k, v) else p)).map (·.1) = m.map (·.1) := by
      rw [List.map_map]
      apply List.map_congr_left
      intro p _
      by_cases hp : p.1 = k <;> simp [hp]
    rw [this]
    exact h
  | false =>
    rw [if_neg (by simp [hs])]
    rw [List.map_append]
    apply List.Nodup.append h (by simp)
    intro x hx hx'
    simp only [List.map_cons, List.map_nil, List.mem_singleton] at hx'
    subst hx'
    exact absurd ((lookup_isSome_iff_mem_keys m x).mpr hx) (by simp [hs])

theorem keys_applyDecls {α : Type} (f : α → Option (String × String)) :
    ∀ (ds : List α) (m : List (String × String)),
      (m.map (·.1)).Nodup → ((applyDecls f m ds).map (·.1)).Nodup := by
  intro ds
  induction ds with
  | nil => intro m h; exact h
  | cons d rest ih =>
    intro m h
    unfold applyDecls
    rw [List.foldl_cons]
    cases f d with
    | none => exact ih m h
    | some kv => exact ih _ (keys_dictInsert m kv.1 kv.2 h)

theorem lookup_applyDecls_id_of_some {X v : String} :
    ∀ {envMap : List (String × String)} {e : List (String × String)},
      (envMap.map (·.1)).Nodup →
      List.lookup X envMap = some v →
      List.lookup X (applyDecls (fun kv => some kv) e envMap) = some v := by
  intro envMap
  induction envMap with
  | nil => intro e _ h; simp at h
  | cons kv rest ih =>
    intro e hnd h
    obtain ⟨k, w⟩ := kv
    unfold applyDecls
    rw [List.foldl_cons]
    by_cases hk : X = k
    · subst hk
      rw [List.lookup_cons_self] at h
      have hw : w = v := by simpa using h
      subst hw
      have hno : ∀ d ∈ rest, ∀ u, (some d : Option (String × String)) ≠ some (X, u) := by
        intro d hd u hdu
        have hd1 : d.1 = X := by
          have : d = (X, u) := by simpa using hdu
          rw [this]
        exact (List.nodup_cons.mp (by simpa using hnd)).1
          (List.mem_map.mpr ⟨d, hd, hd1⟩)
      have := applyDecls_lookup_of_no_hit (m := dictInsert e X w) hno
      unfold applyDecls at this
      rw [this, lookup_dictInsert, if_pos rfl]
    · rw [lookup_cons_ne w rest hk] at h
      exact ih (by simpa using (List.nodup_cons.mp (by simpa using hnd)).2) h

theorem lookup_applyDecls_id_of_none {X : String} :
    ∀ {envMap : List (String × String)} {e : List (String × String)},
      List.lookup X envMap = none →
      List.lookup X (applyDecls (fun kv => some kv) e envMap) = List.lookup X e := by
  intro envMap e h
  apply applyDecls_lookup_of_no_hit
  intro d hd v hdv
  have hd1 : d = (X, v) := by simpa using hdv
  subst hd1
  rw [List.lookup_eq_none_iff] at h
  have := h (X, v) hd
  simp at this

theorem rootDeclKV_eq_some {d : EnvVarDecl} {kv : String × String}
    (h : rootDeclKV d = some kv) :
    d.name = some kv.1 ∧ d.value = some kv.2 ∧ kv.1 ≠ "" ∧ kv.2 ≠ "" := by
  obtain ⟨t, nm, vl⟩ := d
  cases nm with
  | none => simp [rootDeclKV] at h
  | some n =>
    cases vl with
    | none => simp [rootDeclKV] at h
    | some v =>
      simp only [rootDeclKV] at h
      by_cases hnv : n ≠ "" ∧ v ≠ ""
      · rw [if_pos hnv] at h
        have : kv = (n, v) := by simpa using h.symm
        subst this
        exact ⟨rfl, rfl, hnv.1, hnv.2⟩
      · rw [if_neg hnv] at h
        simp at h

/-- The keys of every tier of the composed map are unique (it is a Python
dict). -/
theorem keys_packageEnvVarsMap (plan : ResolvePlan) (extra : List (String × String))
    (pkg : PackageEntry) :
    ((packageEnvVarsMap plan extra pkg).map (·.1)).Nodup := by
  unfold packageEnvVarsMap withExtra
  apply keys_applyDecls
  apply keys_applyDecls
  rw [publicEnvVarsMap_eq_flatMap]
  apply keys_applyDecls
  unfold rootEnvVars
  apply keys_applyDecls
  simp

theorem rootDeclKV_of {d : EnvVarDecl} {X v : String}
    (hn : d.name = some X) (hv : d.value = some v) (hX : X ≠ "") (hvne : v ≠ "") :
    rootDeclKV d = some (X, v) := by
  unfold rootDeclKV
  rw [hn, hv]
  simp [hX, hvne]

theorem pubDeclKV_of {d : EnvVarDecl} {X v : String}
    (ht : d.type.getD "public" = "public")
    (hn : d.name = some X) (hv : d.value = some v) (hX : X ≠ "") (hvne : v ≠ "") :
    pubDeclKV d = some (X, v) := by
  unfold pubDeclKV
  rw [if_pos ht]
  exact rootDeclKV_of hn hv hX hvne

theorem privDeclKV_of {d : EnvVarDecl} {X v : String}
    (ht : d.type.getD "public" = "private")
    (hn : d.name = some X) (hv : d.value = some v) (hX : X ≠ "") (hvne : v ≠ "") :
    privDeclKV d = some (X, v) := by
  unfold privDeclKV
  rw [if_pos ht]
  exact rootDeclKV_of hn hv hX hvne

theorem pubDeclKV_eq_some {d : EnvVarDecl} {kv : String × String}
    (h : pubDeclKV d = some kv) :
    d.type.getD "public" = "public" ∧ rootDeclKV d = some kv := by
  unfold pubDeclKV at h
  by_cases ht : d.type.getD "public" = "public"
  · rw [if_pos ht] at h
    exact ⟨ht, h⟩
  · rw [if_neg ht] at h
    simp at h

theorem privDeclKV_eq_some {d : EnvVarDecl} {kv : String × String}
    (h : privDeclKV d = some kv) :
    d.type.getD "public" = "private" ∧ rootDeclKV d = some kv := by
  unfold privDeclKV at h
  by_cases ht : d.type.getD "public" = "private"
  · rw [if_pos ht] at h
    exact ⟨ht, h⟩
  · rw [if_neg ht] at h
    simp at h

theorem rootDeclKV_eq_none_of_empty {d : EnvVarDecl}
    (h : d.name = none ∨ d.name = some "" ∨ d.value = none ∨ d.value = some "") :
    rootDeclKV d = none := by
  cases hr : rootDeclKV d with
  | none => rfl
  | some kv =>
    obtain ⟨hn, hv, hne, hvne⟩ := rootDeclKV_eq_some hr
    rcases h with h | h | h | h <;> simp_all

/-- The public-plus-overrides tier (`public_env_vars_map` after
`update(extra_env_vars)`) holds `X = v1` whenever every root or package
public declaration of `X` carries the value `v1`, at least one such
declaration exists with `v1` non-empty, and the overrides do not mention
`X`. -/
theorem withExtra_lookup_public (plan : ResolvePlan) (extra : List (String × String))
    (X v1 : String) (hX : X ≠ "") (hv1 : v1 ≠ "")
    (hroot : ∀ d ∈ plan.environment_variables, d.name = some X → d.value = some v1)
    (hpub : ∀ p ∈ plan.packages, ∀ d ∈ p.2.environment_variables,
      d.type.getD "public" = "public" → d.name = some X → d.value = some v1)
    (hex : (∃ d ∈ plan.environment_variables, d.name = some X ∧ d.value = some v1) ∨
      (∃ p ∈ plan.packages, ∃ d ∈ p.2.environment_variables,
        d.type.getD "public" = "public" ∧ d.name = some X ∧ d.value = some v1))
    (hextra : ∀ kv ∈ extra, kv.1 ≠ X) :
    List.lookup X (withExtra plan extra) = some v1 := by
  have hallroot : ∀ d ∈ plan.environment_variables, ∀ v,
      rootDeclKV d = some (X, v) → v = v1 := by
    intro d hd v hdv
    obtain ⟨hn, hv, -, -⟩ := rootDeclKV_eq_some hdv
    have := hroot d hd hn
    rw [hv] at this
    simpa using this
  have hallpub : ∀ d ∈ plan.packages.flatMap (·.2.environment_variables), ∀ v,
      pubDeclKV d = some (X, v) → v = v1 := by
    intro d hd v hdv
    obtain ⟨ht, hdv'⟩ := pubDeclKV_eq_some hdv
    obtain ⟨hn, hv, -, -⟩ := rootDeclKV_eq_some hdv'
    rcases List.mem_flatMap.mp hd with ⟨p, hp, hdp⟩
    have := hpub p hp d hdp ht hn
    rw [hv] at this
    simpa using this
  have hnoextra : ∀ kv ∈ extra, ∀ v,
      (some kv : Option (String × String)) ≠ some (X, v) := by
    intro kv hkv v h
    exact hextra kv hkv (by simpa using congrArg (fun o => o.map (·.1)) h)
  unfold withExtra
  rw [applyDecls_lookup_of_no_hit hnoextra, publicEnvVarsMap_eq_flatMap]
  rcases hex with ⟨d, hd, hn, hv⟩ | ⟨p, hp, d, hd, ht, hn, hv⟩
  · have hit : rootDeclKV d = some (X, v1) := rootDeclKV_of hn hv hX hv1
    have hA : List.lookup X (rootEnvVars plan) = some v1 :=
      applyDecls_lookup_of_hit hallroot ⟨d, hd, hit⟩
    rcases applyDecls_lookup_cases (m := rootEnvVars plan) hallpub with h | h
    · exact h
    · rw [h, hA]
  · have hit : pubDeclKV d = some (X, v1) := pubDeclKV_of ht hn hv hX hv1
    exact applyDecls_lookup_of_hit hallpub
      ⟨d, List.mem_flatMap.mpr ⟨p, hp, hd⟩, hit⟩

/-! ### Claim C5 -/

/-- C5: environment composition obeys the precedence chain inherited
environment < public declarations (root plus every package's, applied in
order) < caller overrides < the target package's own private declarations:
with a (non-empty-valued) public declaration `X = v1` in the plan, caller
overrides not mentioning `X`, a package `P` declaring `X = v2` privately and
a package `Q` with no private declaration of `X`, the environment composed
for `P` maps `X` to `v2` while the environment composed for `Q` maps `X` to
`v1` — regardless of the inherited environment. -/
theorem c5_env_precedence (inherited : List (String × String)) (plan : ResolvePlan)
    (extra : List (String × String)) (X v1 v2 : String)
    (hX : X ≠ "") (hv1 : v1 ≠ "") (hv2 : v2 ≠ "")
    (hroot : ∀ d ∈ plan.environment_variables, d.name = some X → d.value = some v1)
    (hpub : ∀ p ∈ plan.packages, ∀ d ∈ p.2.environment_variables,
      d.type.getD "public" = "public" → d.name = some X → d.value = some v1)
    (hex : (∃ d ∈ plan.environment_variables, d.name = some X ∧ d.value = some v1) ∨
      (∃ p ∈ plan.packages, ∃ d ∈ p.2.environment_variables,
        d.type.getD "public" = "public" ∧ d.name = some X ∧ d.value = some v1))
    (hextra : ∀ kv ∈ extra, kv.1 ≠ X)
    (P Q : PackageEntry)
    (hPex : ∃ d ∈ P.environment_variables,
      d.type.getD "public" = "private" ∧ d.name = some X ∧ d.value = some v2)
    (hPall : ∀ d ∈ P.environment_variables,
      d.type.getD "public" = "private" → d.name = some X → d.value = some v2)
    (hQ : ∀ d ∈ Q.environment_variables,
      d.type.getD "public" = "private" → d.name ≠ some X) :
    List.lookup X (composeEnv inherited plan extra P) = some v2 ∧
    List.lookup X (composeEnv inherited plan extra Q) = some v1 := by
  have hbase : List.lookup X (withExtra plan extra) = some v1 :=
    withExtra_lookup_public plan extra X v1 hX hv1 hroot hpub hex hextra
  constructor
  · have hallP : ∀ d ∈ P.environment_variables, ∀ v,
        privDeclKV d = some (X, v) → v = v2 := by
      intro d hd v hdv
      obtain ⟨ht, hdv'⟩ := privDeclKV_eq_some hdv
      obtain ⟨hn, hv, -, -⟩ := rootDeclKV_eq_some hdv'
      have := hPall d hd ht hn
      rw [hv] at this
      simpa using this
    rcases hPex with ⟨d, hd, ht, hn, hv⟩
    have hP : List.lookup X (packageEnvVarsMap plan extra P) = some v2 :=
      applyDecls_lookup_of_hit hallP ⟨d, hd, privDeclKV_of ht hn hv hX hv2⟩
    exact lookup_applyDecls_id_of_some (keys_packageEnvVarsMap plan extra P) hP
  · have hnoQ : ∀ d ∈ Q.environment_variables, ∀ v,
        privDeclKV d ≠ some (X, v) := by
      intro d hd v hdv
      obtain ⟨ht, hdv'⟩ := privDeclKV_eq_some hdv
      obtain ⟨hn, -, -, -⟩ := rootDeclKV_eq_some hdv'
      exact hQ d hd ht hn
    have hQ' : List.lookup X (packageEnvVarsMap plan extra Q) = some v1 := by
      unfold packageEnvVarsMap
      rw [applyDecls_lookup_of_no_hit hnoQ]
      exact hbase
    exact lookup_applyDecls_id_of_some (keys_packageEnvVarsMap plan extra Q) hQ'

/-- C5 witness: `c5_env_precedence` at a concrete plan declaring a public
`X = 1` at the root, with `P` privately declaring `X = 2` and `Q` declaring
nothing. -/
theorem c5_env_precedence_witness :
    List.lookup "X"
        (composeEnv [] (⟨"/s", "/i", "/b",
          [⟨some "public", some "X", some "1"⟩], [], []⟩ : ResolvePlan) []
          (⟨1, "P", "", none, "t", "/sp", "/ip", "/bp",
            [⟨some "private", some "X", some "2"⟩], [], [], []⟩ : PackageEntry)) =
      some "2" ∧
    List.lookup "X"
        (composeEnv [] (⟨"/s", "/i", "/b",
          [⟨some "public", some "X", some "1"⟩], [], []⟩ : ResolvePlan) []
          (⟨2, "Q", "", none, "t", "/sq", "/iq", "/bq", [], [], [], []⟩ : PackageEntry)) =
      some "1" := by
  have h := c5_env_precedence [] (⟨"/s", "/i", "/b",
      [⟨some "public", some "X", some "1"⟩], [], []⟩ : ResolvePlan) []
    "X" "1" "2" (by decide) (by decide) (by decide)
    (by rintro d hd hn
        rw [List.mem_singleton] at hd
        subst hd
        rfl)
    (by rintro p hp
        simp at hp)
    (Or.inl ⟨⟨some "public", some "X", some "1"⟩, by simp, rfl, rfl⟩)
    (by rintro kv hkv
        simp at hkv)
    (⟨1, "P", "", none, "t", "/sp", "/ip", "/bp",
      [⟨some "private", some "X", some "2"⟩], [], [], []⟩ : PackageEntry)
    (⟨2, "Q", "", none, "t", "/sq", "/iq", "/bq", [], [], [], []⟩ : PackageEntry)
    ⟨⟨some "private", some "X", some "2"⟩, by simp, rfl, rfl, rfl⟩
    (by rintro d hd ht hn
        rw [List.mem_singleton] at hd
        subst hd
        rfl)
    (by rintro d hd
        simp at hd)
  exact h

/-! ### Claim C10 -/

/-- C10: an environment-variable declaration whose value is the empty string,
or whose name or value is missing or empty, is skipped at every tier —
root-level, package public, and package private; consequently, if every
declaration of a name `X` in the plan and in the processed package is
empty-valued and the overrides do not mention `X`, the composed environment
binds `X` exactly as the inherited-plus-specials environment does, and an
empty-valued private declaration of `X` does not shadow a public `X = v1`. -/
theorem c10_empty_value_skipped :
    (∀ d : EnvVarDecl,
      (d.name = none ∨ d.name = some "" ∨ d.value = none ∨ d.value = some "") →
      rootDeclKV d = none ∧ pubDeclKV d = none ∧ privDeclKV d = none) ∧
    (∀ (inherited : List (String × String)) (plan : ResolvePlan)
        (extra : List (String × String)) (pkg : PackageEntry) (X : String),
      (∀ d ∈ plan.environment_variables, d.name = some X →
        (d.value = none ∨ d.value = some "")) →
      (∀ p ∈ plan.packages, ∀ d ∈ p.2.environment_variables, d.name = some X →
        (d.value = none ∨ d.value = some "")) →
      (∀ d ∈ pkg.environment_variables, d.name = some X →
        (d.value = none ∨ d.value = some "")) →
      (∀ kv ∈ extra, kv.1 ≠ X) →
      List.lookup X (composeEnv inherited plan extra pkg) =
        List.lookup X (setup_environment inherited pkg.source_folder
          pkg.build_folder pkg.install_folder [])) ∧
    (∀ (inherited : List (String × String)) (plan : ResolvePlan)
        (extra : List (String × String)) (pkg : PackageEntry) (X v1 : String),
      X ≠ "" → v1 ≠ "" →
      (∀ d ∈ plan.environment_variables, d.name = some X → d.value = some v1) →
      (∀ p ∈ plan.packages, ∀ d ∈ p.2.environment_variables,
        d.type.getD "public" = "public" → d.name = some X → d.value = some v1) →
      ((∃ d ∈ plan.environment_variables, d.name = some X ∧ d.value = some v1) ∨
        (∃ p ∈ plan.packages, ∃ d ∈ p.2.environment_variables,
          d.type.getD "public" = "public" ∧ d.name = some X ∧ d.value = some v1)) →
      (∀ kv ∈ extra, kv.1 ≠ X) →
      (∀ d ∈ pkg.environment_variables, d.type.getD "public" = "private" →
        d.name = some X → (d.value = none ∨ d.value = some "")) →
      List.lookup X (composeEnv inherited plan extra pkg) = some v1) := by
  refine ⟨?_, ?_, ?_⟩
  · intro d h
    have hr : rootDeclKV d = none := rootDeclKV_eq_none_of_empty (by tauto)
    refine ⟨hr, ?_, ?_⟩
    · unfold pubDeclKV
      by_cases ht : d.type.getD "public" = "public" <;> simp [ht, hr]
    · unfold privDeclKV
      by_cases ht : d.type.getD "public" = "private" <;> simp [ht, hr]
  · intro inherited plan extra pkg X hroot hpkgs hpkg hextra
    have hempty : ∀ {d : EnvVarDecl},
        (d.value = none ∨ d.value = some "") → rootDeclKV d = none := by
      intro d h
      exact rootDeclKV_eq_none_of_empty (by tauto)
    have hmap : List.lookup X (packageEnvVarsMap plan extra pkg) = none := by
      unfold packageEnvVarsMap withExtra
      have hnopriv : ∀ d ∈ pkg.environment_variables, ∀ v,
          privDeclKV d ≠ some (X, v) := by
        intro d hd v hdv
        obtain ⟨-, hdv'⟩ := privDeclKV_eq_some hdv
        obtain ⟨hn, hv, -, hvne⟩ := rootDeclKV_eq_some hdv'
        rcases hpkg d hd hn with h | h <;> rw [h] at hv <;> simp_all
      have hnoextra : ∀ kv ∈ extra, ∀ v,
          (some kv : Option (String × String)) ≠ some (X, v) := by
        intro kv hkv v h
        exact hextra kv hkv (by simpa using congrArg (fun o => o.map (·.1)) h)
      rw [applyDecls_lookup_of_no_hit hnopriv, applyDecls_lookup_of_no_hit hnoextra,
        publicEnvVarsMap_eq_flatMap]
      have hnopub : ∀ d ∈ plan.packages.flatMap (·.2.environment_variables), ∀ v,
          pubDeclKV d ≠ some (X, v) := by
        intro d hd v hdv
        obtain ⟨-, hdv'⟩ := pubDeclKV_eq_some hdv
        obtain ⟨hn, hv, -, hvne⟩ := rootDeclKV_eq_some hdv'
        rcases List.mem_flatMap.mp hd with ⟨p, hp, hdp⟩
        rcases hpkgs p hp d hdp hn with h | h <;> rw [h] at hv <;> simp_all
      have hnoroot : ∀ d ∈ plan.environment_variables, ∀ v,
          rootDeclKV d ≠ some (X, v) := by
        intro d hd v hdv
        obtain ⟨hn, hv, -, hvne⟩ := rootDeclKV_eq_some hdv
        rcases hroot d hd hn with h | h <;> rw [h] at hv <;> simp_all
      rw [applyDecls_lookup_of_no_hit hnopub]
      unfold rootEnvVars
      rw [applyDecls_lookup_of_no_hit hnoroot]
      rfl
    unfold composeEnv setup_environment
    rw [lookup_applyDecls_id_of_none hmap]
    rfl
  · intro inherited plan extra pkg X v1 hX hv1 hroot hpub hex hextra hpriv
    have hbase : List.lookup X (withExtra plan extra) = some v1 :=
      withExtra_lookup_public plan extra X v1 hX hv1 hroot hpub hex hextra
    have hnopriv : ∀ d ∈ pkg.environment_variables, ∀ v,
        privDeclKV d ≠ some (X, v) := by
      intro d hd v hdv
      obtain ⟨ht, hdv'⟩ := privDeclKV_eq_some hdv
      obtain ⟨hn, hv, -, hvne⟩ := rootDeclKV_eq_some hdv'
      rcases hpriv d hd ht hn with h | h <;> rw [h] at hv <;> simp_all
    have hmap : List.lookup X (packageEnvVarsMap plan extra pkg) = some v1 := by
      unfold packageEnvVarsMap
      rw [applyDecls_lookup_of_no_hit hnopriv]
      exact hbase
    exact lookup_applyDecls_id_of_some (keys_packageEnvVarsMap plan extra pkg) hmap

/-- C10 witness: `c10_empty_value_skipped` at a concrete plan whose root
declares a public `X = 1` and whose processed package declares a private,
empty-valued `X`: the empty private declaration does not shadow the public
value. -/
theorem c10_empty_value_skipped_witness :
    List.lookup "X"
        (composeEnv [] (⟨"/s", "/i", "/b",
          [⟨some "public", some "X", some "1"⟩], [], []⟩ : ResolvePlan) []
          (⟨1, "P", "", none, "t", "/sp", "/ip", "/bp",
            [⟨some "private", some "X", some ""⟩], [], [], []⟩ : PackageEntry)) =
      some "1" := by
  apply c10_empty_value_skipped.2.2 [] _ [] _ "X" "1" (by decide) (by decide)
  · rintro d hd hn
    rw [List.mem_singleton] at hd
    subst hd
    rfl
  · rintro p hp
    simp at hp
  · exact Or.inl ⟨⟨some "public", some "X", some "1"⟩, by simp, rfl, rfl⟩
  · rintro kv hkv
    simp at hkv
  · rintro d hd ht hn
    rw [List.mem_singleton] at hd
    subst hd
    exact Or.inr rfl

/-! ### Fail-fast lemmas (for claim C8) -/

theorem failFast_append {exec : List (String × String) → String → Nat}
    {tr₀ : List ExecCall} {r : List ExecCall × Option String}
    (h₀ : ∀ t ∈ tr₀, exec t.env t.cmd = 0) (h : failFast exec r) :
    failFast exec (tr₀ ++ r.1, r.2) := by
  constructor
  · intro hn t ht
    rcases List.mem_append.mp ht with h1 | h1
    · exact h₀ t h1
    · exact h.1 hn t h1
  · intro hs
    obtain ⟨pre, last, heq, hne, hpre⟩ := h.2 hs
    refine ⟨tr₀ ++ pre, last, ?_, hne, ?_⟩
    · show tr₀ ++ r.1 = (tr₀ ++ pre) ++ [last]
      rw [heq, List.append_assoc]
    · intro t ht
      rcases List.mem_append.mp ht with h1 | h1
      · exact h₀ t h1
      · exact hpre t h1

theorem failFast_nil {exec : List (String × String) → String → Nat} :
    failFast exec ([], none) :=
  ⟨fun _ t ht => by simp at ht, fun h => absurd rfl h⟩

theorem failFast_runCommandList (exec : List (String × String) → String → Nat)
    (st : String) (env : List (String × String)) :
    ∀ cmds, failFast exec (runCommandList exec st env cmds) := by
  intro cmds
  induction cmds with
  | nil => exact failFast_nil
  | cons c cs ih =>
    show failFast exec (runCommandList exec st env (c :: cs))
    rw [runCommandList]
    by_cases hz : exec env (expandCommand env c) ≠ 0
    · rw [if_pos hz]
      refine ⟨fun hn => by simp at hn, fun _ => ⟨[], ⟨env, expandCommand env c⟩, ?_, hz, ?_⟩⟩
      · simp
      · intro t ht
        simp at ht
    · rw [if_neg hz]
      push_neg at hz
      constructor
      · intro hn t ht
        rcases List.mem_cons.mp ht with rfl | h1
        · exact hz
        · exact ih.1 hn t h1
      · intro hs
        obtain ⟨pre, last, heq, hne, hpre⟩ := ih.2 hs
        refine ⟨⟨env, expandCommand env c⟩ :: pre, last, ?_, hne, ?_⟩
        · show ⟨env, expandCommand env c⟩ :: (runCommandList exec st env cs).1 = _
          rw [heq, List.cons_append]
        · intro t ht
          rcases List.mem_cons.mp ht with rfl | h1
          · exact hz
          · exact hpre t h1

theorem failFast_build_package_run (exec : List (String × String) → String → Nat)
    (env : List (String × String)) (cmds : List String) :
    failFast exec (build_package_run exec env cmds) := by
  unfold build_package_run
  by_cases he : cmds.isEmpty
  · rw [if_pos he]
    exact failFast_nil
  · rw [if_neg he]
    cases List.lookup "ARIEO_CUR_PACKAGE_BUILD_FOLDER" env with
    | some v => exact failFast_runCommandList exec "Build" _ cmds
    | none => exact failFast_runCommandList exec "Build" env cmds

theorem failFast_install_package_run (exec : List (String × String) → String → Nat)
    (env : List (String × String)) (cmds : List String) :
    failFast exec (install_package_run exec env cmds) := by
  unfold install_package_run
  by_cases he : cmds.isEmpty
  · rw [if_pos he]
    exact failFast_nil
  · rw [if_neg he]
    exact failFast_runCommandList exec "Install" env cmds

theorem failFast_some_shape {exec : List (String × String) → String → Nat}
    {r : List ExecCall × Option String} {e : String}
    (h : failFast exec r) (he : r.2 = some e) : failFast exec (r.1, some e) := by
  have : (r.1, some e) = r := by
    cases r with
    | mk a b => simp_all
  rw [this]
  exact h

/-- Sequencing two run results: the second only runs when the first
succeeded. -/
theorem failFast_seq {exec : List (String × String) → String → Nat}
    {r₁ r₂ : List ExecCall × Option String}
    (h₁ : failFast exec r₁) (h₂ : failFast exec r₂) :
    failFast exec
      (match r₁.2 with
       | some e => (r₁.1, some e)
       | none => (r₁.1 ++ r₂.1, r₂.2)) := by
  cases hr : r₁.2 with
  | some e => exact failFast_some_shape h₁ hr
  | none => exact failFast_append (h₁.1 hr) h₂

theorem seq_err {r₁ r₂ : List ExecCall × Option String} {err : String}
    (h : (match r₁.2 with
          | some e => (r₁.1, some e)
          | none => (r₁.1 ++ r₂.1, r₂.2) : List ExecCall × Option String).2 = some err) :
    r₁.2 = some err ∨ r₂.2 = some err := by
  cases hr : r₁.2 with
  | some e =>
    rw [hr] at h
    have : e = err := by simpa using h
    subst this
    exact Or.inl rfl
  | none =>
    rw [hr] at h
    exact Or.inr (by simpa using h)

theorem failFast_processStage (exec : List (String × String) → String → Nat)
    (stage : String) (env : List (String × String)) (pkg : PackageEntry) :
    failFast exec (processStage exec stage env pkg) := by
  unfold processStage
  by_cases hb : stage = "build"
  · rw [if_pos hb]
    exact failFast_build_package_run exec env pkg.build_commands
  · rw [if_neg hb]
    by_cases hi : stage = "install"
    · rw [if_pos hi]
      exact failFast_install_package_run exec env pkg.install_commands
    · rw [if_neg hi]
      exact failFast_seq (failFast_build_package_run exec env pkg.build_commands)
        (failFast_install_package_run exec env pkg.install_commands)

theorem failFast_processPackagesLoop (exec : List (String × String) → String → Nat)
    (inherited : List (String × String)) (plan : ResolvePlan)
    (extra : List (String × String)) (stage : String) :
    ∀ ns, (∀ n ∈ ns, (List.lookup n plan.packages).isSome) →
      failFast exec (processPackagesLoop exec inherited plan extra stage ns) := by
  intro ns
  induction ns with
  | nil => intro _; exact failFast_nil
  | cons n rest ih =>
    intro hall
    show failFast exec (processPackagesLoop exec inherited plan extra stage (n :: rest))
    rw [processPackagesLoop]
    cases hl : List.lookup n plan.packages with
    | none =>
      exact absurd (hall n (List.mem_cons_self _ _)) (by simp [hl])
    | some pkg =>
      exact failFast_seq
        (failFast_processStage exec stage (composeEnv inherited plan extra pkg) pkg)
        (ih (fun n' hn' => hall n' (List.mem_cons_of_mem _ hn')))

theorem failFast_processCombos (exec : List (String × String) → String → Nat)
    (inherited : List (String × String)) (plan : ResolvePlan)
    (stage : String) (order : List String)
    (hall : ∀ n ∈ order, (List.lookup n plan.packages).isSome) :
    ∀ combos, failFast exec (processCombos exec inherited plan stage order combos) := by
  intro combos
  induction combos with
  | nil => exact failFast_nil
  | cons combo rest ih =>
    show failFast exec (processCombos exec inherited plan stage order (combo :: rest))
    rw [processCombos]
    exact failFast_seq
      (failFast_processPackagesLoop exec inherited plan combo stage order hall) ih

theorem runCommandList_err (exec : List (String × String) → String → Nat)
    (st : String) (env : List (String × String)) :
    ∀ cmds err, (runCommandList exec st env cmds).2 = some err →
      ∃ c ∈ cmds, err = "✗ " ++ st ++ " command failed: " ++ c := by
  intro cmds
  induction cmds with
  | nil => intro err h; simp [runCommandList] at h
  | cons c cs ih =>
    intro err h
    rw [runCommandList] at h
    by_cases hz : exec env (expandCommand env c) ≠ 0
    · rw [if_pos hz] at h
      exact ⟨c, List.mem_cons_self _ _, by simpa using h.symm⟩
    · rw [if_neg hz] at h
      obtain ⟨c2, hc2, he⟩ := ih err h
      exact ⟨c2, List.mem_cons_of_mem _ hc2, he⟩

theorem build_package_run_err (exec : List (String × String) → String → Nat)
    (env : List (String × String)) (cmds : List String) (err : String)
    (h : (build_package_run exec env cmds).2 = some err) :
    ∃ c ∈ cmds, err = "✗ Build command failed: " ++ c := by
  unfold build_package_run at h
  by_cases he : cmds.isEmpty
  · rw [if_pos he] at h
    simp at h
  · rw [if_neg he] at h
    cases hl : List.lookup "ARIEO_CUR_PACKAGE_BUILD_FOLDER" env with
    | some v =>
      rw [hl] at h
      exact runCommandList_err exec "Build" _ cmds err h
    | none =>
      rw [hl] at h
      exact runCommandList_err exec "Build" env cmds err h

theorem install_package_run_err (exec : List (String × String) → String → Nat)
    (env : List (String × String)) (cmds : List String) (err : String)
    (h : (install_package_run exec env cmds).2 = some err) :
    ∃ c ∈ cmds, err = "✗ Install command failed: " ++ c := by
  unfold install_package_run at h
  by_cases he : cmds.isEmpty
  · rw [if_pos he] at h
    simp at h
  · rw [if_neg he] at h
    exact runCommandList_err exec "Install" env cmds err h

theorem processStage_err (exec : List (String × String) → String → Nat)
    (stage : String) (env : List (String × String)) (pkg : PackageEntry)
    (err : String) (h : (processStage exec stage env pkg).2 = some err) :
    (∃ c ∈ pkg.build_commands, err = "✗ Build command failed: " ++ c) ∨
    (∃ c ∈ pkg.install_commands, err = "✗ Install command failed: " ++ c) := by
  unfold processStage at h
  by_cases hb : stage = "build"
  · rw [if_pos hb] at h
    exact Or.inl (build_package_run_err exec env pkg.build_commands err h)
  · rw [if_neg hb] at h
    by_cases hi : stage = "install"
    · rw [if_pos hi] at h
      exact Or.inr (install_package_run_err exec env pkg.install_commands err h)
    · rw [if_neg hi] at h
      rcases seq_err h with h1 | h1
      · exact Or.inl (build_package_run_err exec env pkg.build_commands err h1)
      · exact Or.inr (install_package_run_err exec env pkg.install_commands err h1)

theorem processPackagesLoop_err (exec : List (String × String) → String → Nat)
    (inherited : List (String × String)) (plan : ResolvePlan)
    (extra : List (String × String)) (stage : String) :
    ∀ ns, (∀ n ∈ ns, (List.lookup n plan.packages).isSome) →
      ∀ err, (processPackagesLoop exec inherited plan extra stage ns).2 = some err →
      ∃ n pkg, n ∈ ns ∧ List.lookup n plan.packages = some pkg ∧
        ((∃ c ∈ pkg.build_commands, err = "✗ Build command failed: " ++ c) ∨
         (∃ c ∈ pkg.install_commands, err = "✗ Install command failed: " ++ c)) := by
  intro ns
  induction ns with
  | nil => intro _ err h; simp [processPackagesLoop] at h
  | cons n rest ih =>
    intro hall err h
    rw [processPackagesLoop] at h
    cases hl : List.lookup n plan.packages with
    | none => exact absurd (hall n (List.mem_cons_self _ _)) (by simp [hl])
    | some pkg =>
      rw [hl] at h
      rcases seq_err h with h1 | h1
      · exact ⟨n, pkg, List.mem_cons_self _ _, hl, processStage_err _ _ _ _ _ h1⟩
      · obtain ⟨n2, pkg2, hn2, hl2, hc2⟩ :=
          ih (fun x hx => hall x (List.mem_cons_of_mem _ hx)) err h1
        exact ⟨n2, pkg2, List.mem_cons_of_mem _ hn2, hl2, hc2⟩

theorem processCombos_err (exec : List (String × String) → String → Nat)
    (inherited : List (String × String)) (plan : ResolvePlan)
    (stage : String) (order : List String)
    (hall : ∀ n ∈ order, (List.lookup n plan.packages).isSome) :
    ∀ combos err, (processCombos exec inherited plan stage order combos).2 = some err →
      ∃ n pkg, n ∈ order ∧ List.lookup n plan.packages = some pkg ∧
        ((∃ c ∈ pkg.build_commands, err = "✗ Build command failed: " ++ c) ∨
         (∃ c ∈ pkg.install_commands, err = "✗ Install command failed: " ++ c)) := by
  intro combos
  induction combos with
  | nil => intro err h; simp [processCombos] at h
  | cons combo rest ih =>
    intro err h
    rw [processCombos] at h
    rcases seq_err h with h1 | h1
    · exact processPackagesLoop_err exec inherited plan combo stage order hall err h1
    · exact ih err h1

/-! ### Claim C8 -/

/-- C8 counterexample: a one-package plan whose only build command exits with
status 7.  The surfaced fatal message is `✗ Build command failed: boom`: it
carries the stage and the command text, but neither the package name `MYPKG`
nor the exit code `7`, so the claim that the surfaced error carries the
package name and the exit code is false of the code (which prints exactly
this message and calls `sys.exit(1)`). -/
theorem c8_counterexample :
    (processCombos (fun _ c => if c = "boom" then 7 else 0) []
        (⟨"/s", "/i", "/b", [], ["MYPKG"],
          [("MYPKG", ⟨1, "MYPKG", "", none, "t", "/sp", "/ip", "/bp", [],
            ["boom"], [], []⟩)]⟩ : ResolvePlan)
        "build" ["MYPKG"] [[]]).2 =
      some "✗ Build command failed: boom" ∧
    containsSub "✗ Build command failed: boom" "MYPKG" = false ∧
    containsSub "✗ Build command failed: boom" "7" = false :=
  ⟨by decide, by decide, by decide⟩

/-- C8 (amended): the first command exiting with a non-zero status aborts the
entire run — in the final trace every executed command before the failing one
exited 0, the failing command is the last thing executed, and no further
command of any package, stage or environment combination runs; the failure is
surfaced as a fatal error (exit status 1) whose message carries the stage and
the unexpanded command text of a command of one of the processed packages
(not the package name or the command's numeric exit status); a package whose
command list for the requested stage is empty is a no-op success, not an
error. -/
theorem c8_fail_fast (exec : List (String × String) → String → Nat)
    (inherited : List (String × String)) (plan : ResolvePlan) (stage : String)
    (order : List String) (combos : List (List (String × String)))
    (env : List (String × String))
    (hall : ∀ n ∈ order, (List.lookup n plan.packages).isSome) :
    build_package_run exec env [] = ([], none) ∧
    install_package_run exec env [] = ([], none) ∧
    failFast exec (processCombos exec inherited plan stage order combos) ∧
    (∀ err, (processCombos exec inherited plan stage order combos).2 = some err →
      ∃ n pkg, n ∈ order ∧ List.lookup n plan.packages = some pkg ∧
        ((∃ c ∈ pkg.build_commands, err = "✗ Build command failed: " ++ c) ∨
         (∃ c ∈ pkg.install_commands, err = "✗ Install command failed: " ++ c))) :=
  ⟨rfl, rfl, failFast_processCombos exec inherited plan stage order hall combos,
   processCombos_err exec inherited plan stage order hall combos⟩

/-- C8 witness: `c8_fail_fast` on the spec's fail-fast scenario — three
packages A → B → C with B's build command failing. -/
theorem c8_fail_fast_witness :
    failFast (fun _ c => if c = "failB" then 1 else 0)
      (processCombos (fun _ c => if c = "failB" then 1 else 0) []
        (⟨"/s", "/i", "/b", [], ["A", "B", "C"],
          [("A", ⟨1, "A", "", none, "t", "/sa", "/ia", "/ba", [], ["buildA"],
             ["installA"], []⟩),
           ("B", ⟨2, "B", "", none, "t", "/sb", "/ib", "/bb", [], ["failB"],
             ["installB"], [⟨"A", "urlA", "t"⟩]⟩),
           ("C", ⟨3, "C", "", none, "t", "/sc", "/ic", "/bc", [], ["buildC"],
             ["installC"], [⟨"B", "urlB", "t"⟩]⟩)]⟩ : ResolvePlan)
        "build_and_install" ["A", "B", "C"] [[]]) :=
  (c8_fail_fast (fun _ c => if c = "failB" then 1 else 0) [] _ "build_and_install"
    ["A", "B", "C"] [[]] [] (by decide)).2.2.1

/-! ### Dependency-gathering lemmas (for claim C9) -/

theorem contains_iff_mem (l : List String) (x : String) :
    l.contains x = true ↔ x ∈ l := List.elem_iff

theorem foldl_subset_of_step {g : String → List String → List String}
    (hg : ∀ d r, r ⊆ g d r) :
    ∀ (ds : List String) (r : List String), r ⊆ ds.foldl (fun r d => g d r) r := by
  intro ds
  induction ds with
  | nil => intro r x hx; exact hx
  | cons d rest ih =>
    intro r x hx
    rw [List.foldl_cons]
    exact ih (g d r) (hg d r hx)

theorem addPkgF_succ_mem {packages : List (String × PackageEntry)} {f : Nat}
    {pkg : String} {res : List String} (hmem : pkg ∈ res) :
    addPkgF packages (f + 1) pkg res = res := by
  simp only [addPkgF]
  rw [if_pos hmem]

theorem addPkgF_succ_none {packages : List (String × PackageEntry)} {f : Nat}
    {pkg : String} {res : List String} (hmem : pkg ∉ res)
    (hl : List.lookup pkg packages = none) :
    addPkgF packages (f + 1) pkg res = res := by
  simp only [addPkgF, hl]
  rw [if_neg hmem]

theorem addPkgF_succ_some {packages : List (String × PackageEntry)} {f : Nat}
    {pkg : String} {res : List String} {info : PackageEntry} (hmem : pkg ∉ res)
    (hl : List.lookup pkg packages = some info) :
    addPkgF packages (f + 1) pkg res =
      ((info.dependencies.map (·.name)).filter (fun d => d ≠ "")).foldl
        (fun r d => addPkgF packages f d r) (res ++ [pkg]) := by
  simp only [addPkgF, hl]
  rw [if_neg hmem]

theorem addPkgF_mono (packages : List (String × PackageEntry)) :
    ∀ (f : Nat) (pkg : String) (res : List String),
      res ⊆ addPkgF packages f pkg res := by
  intro f
  induction f with
  | zero => intro pkg res x hx; exact hx
  | succ f ih =>
    intro pkg res
    by_cases hmem : pkg ∈ res
    · rw [addPkgF_succ_mem hmem]
      exact fun _ hx => hx
    · cases hl : List.lookup pkg packages with
      | none =>
        rw [addPkgF_succ_none hmem hl]
        exact fun _ hx => hx
      | some info =>
        rw [addPkgF_succ_some hmem hl]
        intro x hx
        exact foldl_subset_of_step ih _ _ (List.mem_append_left _ hx)

theorem addPkgF_self_mem (packages : List (String × PackageEntry)) (f : Nat)
    (pkg : String) (res : List String) (hf : 0 < f)
    (hs : (List.lookup pkg packages).isSome) :
    pkg ∈ addPkgF packages f pkg res := by
  cases f with
  | zero => exact absurd hf (by simp)
  | succ f =>
    by_cases hmem : pkg ∈ res
    · rw [addPkgF_succ_mem hmem]; exact hmem
    · cases hl : List.lookup pkg packages with
      | none => rw [hl] at hs; simp at hs
      | some info =>
        rw [addPkgF_succ_some hmem hl]
        exact foldl_subset_of_step (addPkgF_mono packages f) _ _
          (List.mem_append_right _ (List.mem_singleton_self pkg))

theorem addPkgF_sound (packages : List (String × PackageEntry)) :
    ∀ (f : Nat) (pkg : String) (res : List String) (x : String),
      x ∈ addPkgF packages f pkg res →
      x ∈ res ∨ (Relation.ReflTransGen (depStep packages) pkg x ∧
        (List.lookup x packages).isSome) := by
  intro f
  induction f with
  | zero => intro pkg res x hx; exact Or.inl hx
  | succ f ih =>
    intro pkg res x hx
    by_cases hmem : pkg ∈ res
    · rw [addPkgF_succ_mem hmem] at hx; exact Or.inl hx
    · cases hl : List.lookup pkg packages with
      | none => rw [addPkgF_succ_none hmem hl] at hx; exact Or.inl hx
      | some info =>
        rw [addPkgF_succ_some hmem hl] at hx
        have hfold : ∀ (ds : List String) (r : List String),
            (∀ d ∈ ds, depStep packages pkg d) →
            ∀ y, y ∈ ds.foldl (fun r d => addPkgF packages f d r) r →
              y ∈ r ∨ (Relation.ReflTransGen (depStep packages) pkg y ∧
                (List.lookup y packages).isSome) := by
          intro ds
          induction ds with
          | nil => intro r _ y hy; exact Or.inl hy
          | cons d rest ihds =>
            intro r hall y hy
            rw [List.foldl_cons] at hy
            rcases ihds (addPkgF packages f d r)
                (fun d' hd' => hall d' (List.mem_cons_of_mem _ hd')) y hy with h1 | h1
            · rcases ih d r y h1 with h2 | h2
              · exact Or.inl h2
              · exact Or.inr ⟨Relation.ReflTransGen.head
                  (hall d (List.mem_cons_self _ _)) h2.1, h2.2⟩
            · exact Or.inr h1
        rcases hfold _ (res ++ [pkg])
            (fun d hd => ⟨info, hl, hd⟩) x hx with h1 | h1
        · rcases List.mem_append.mp h1 with h2 | h2
          · exact Or.inl h2
          · have hxp : x = pkg := by simpa using h2
            subst hxp
            exact Or.inr ⟨Relation.ReflTransGen.refl, by simp [hl]⟩
        · exact Or.inr h1

theorem unvisitedCount_le_of_subset (packages : List (String × PackageEntry))
    {res res' : List String} (h : res ⊆ res') :
    unvisitedCount packages res' ≤ unvisitedCount packages res := by
  unfold unvisitedCount
  refine List.Sublist.length_le (List.monotone_filter_right _ ?_)
  intro a ha
  simp only [decide_eq_true_eq] at ha ⊢
  exact fun hmem => ha (h hmem)

theorem length_lt_of_sublist_of_mem {s t : List String} {a : String}
    (hsub : List.Sublist s t) (hat : a ∈ t) (has : a ∉ s) : s.length < t.length := by
  rcases Nat.lt_or_ge s.length t.length with h | h
  · exact h
  · exfalso
    have heq : s = t := hsub.eq_of_length (Nat.le_antisymm hsub.length_le h)
    subst heq
    exact has hat

theorem unvisitedCount_lt_append (packages : List (String × PackageEntry))
    (res : List String) (pkg : String)
    (hs : (List.lookup pkg packages).isSome) (hmem : pkg ∉ res) :
    unvisitedCount packages (res ++ [pkg]) < unvisitedCount packages res := by
  unfold unvisitedCount
  refine length_lt_of_sublist_of_mem (a := pkg)
    (List.monotone_filter_right _ ?_) ?_ ?_
  · intro a ha
    simp only [decide_eq_true_eq, List.mem_append, List.mem_singleton] at ha ⊢
    exact fun h2 => ha (Or.inl h2)
  · rw [List.mem_filter]
    exact ⟨(lookup_isSome_iff_mem_keys packages pkg).mp hs, by simpa using hmem⟩
  · rw [List.mem_filter]
    rintro ⟨-, hpk⟩
    simp at hpk

theorem unvisitedCount_lt_fuel (packages : List (String × PackageEntry))
    (res : List String) : unvisitedCount packages res < packages.length + 1 := by
  unfold unvisitedCount
  have h1 : ((packages.map (·.1)).filter (fun k => decide (k ∉ res))).length ≤
      (packages.map (·.1)).length := List.length_filter_le _ _
  rw [List.length_map] at h1
  omega

theorem addPkgF_closed (packages : List (String × PackageEntry)) :
    ∀ (f : Nat) (pkg : String) (res : List String),
      unvisitedCount packages res < f →
      ∀ u, u ∈ addPkgF packages f pkg res → u ∉ res →
      ∀ v, depStep packages u v → (List.lookup v packages).isSome →
        v ∈ addPkgF packages f pkg res := by
  intro f
  induction f with
  | zero => intro pkg res hf; exact absurd hf (by simp)
  | succ f ih =>
    intro pkg res hf u hu hur v hsv hvs
    by_cases hmem : pkg ∈ res
    · rw [addPkgF_succ_mem hmem] at hu; exact absurd hu hur
    · cases hl : List.lookup pkg packages with
      | none =>
        rw [addPkgF_succ_none hmem hl] at hu
        exact absurd hu hur
      | some info =>
        rw [addPkgF_succ_some hmem hl] at hu ⊢
        have hκ : unvisitedCount packages (res ++ [pkg]) < f := by
          have h1 := unvisitedCount_lt_append packages res pkg (by simp [hl]) hmem
          omega
        have key : ∀ (ds : List String) (r : List String),
            unvisitedCount packages r < f →
            ((∀ u', u' ∈ ds.foldl (fun r d => addPkgF packages f d r) r → u' ∉ r →
              ∀ v', depStep packages u' v' → (List.lookup v' packages).isSome →
                v' ∈ ds.foldl (fun r d => addPkgF packages f d r) r) ∧
             (∀ d ∈ ds, (List.lookup d packages).isSome →
                d ∈ ds.foldl (fun r d => addPkgF packages f d r) r)) := by
          intro ds
          induction ds with
          | nil =>
            intro r _
            exact ⟨fun u' hu' hur' => absurd hu' hur',
                   fun d hd _ => absurd hd (List.not_mem_nil d)⟩
          | cons d rest ihds =>
            intro r hκr
            have hpos : 0 < f := Nat.lt_of_le_of_lt (Nat.zero_le _) hκr
            have hκd : unvisitedCount packages (addPkgF packages f d r) ≤
                unvisitedCount packages r :=
              unvisitedCount_le_of_subset packages (addPkgF_mono packages f d r)
            obtain ⟨ha, hb⟩ := ihds (addPkgF packages f d r) (Nat.lt_of_le_of_lt hκd hκr)
            rw [List.foldl_cons]
            constructor
            · intro u' hu' hur' v' hsv' hvs'
              by_cases hur1 : u' ∈ addPkgF packages f d r
              · have hv' := ih d r hκr u' hur1 hur' v' hsv' hvs'
                exact foldl_subset_of_step (addPkgF_mono packages f) rest _ hv'
              · exact ha u' hu' hur1 v' hsv' hvs'
            · intro d' hd' hds'
              rcases List.mem_cons.mp hd' with heq | hmem'
              · rw [heq] at hds' ⊢
                exact foldl_subset_of_step (addPkgF_mono packages f) rest _
                  (addPkgF_self_mem packages f d r hpos hds')
              · exact hb d' hmem' hds'
        obtain ⟨ha, hb⟩ := key _ (res ++ [pkg]) hκ
        by_cases hu0 : u ∈ res ++ [pkg]
        · have hupkg : u = pkg := by
            rcases List.mem_append.mp hu0 with h2 | h2
            · exact absurd h2 hur
            · simpa using h2
          subst hupkg
          obtain ⟨info2, hl2, hv2⟩ := hsv
          rw [hl] at hl2
          injection hl2 with hinfo
          subst hinfo
          exact hb v hv2 hvs
        · exact ha u hu hu0 v hsv hvs

theorem gather_fold_closed (packages : List (String × PackageEntry)) :
    ∀ (l : List String) (r : List String),
      (∀ u ∈ r, ∀ v, depStep packages u v →
        (List.lookup v packages).isSome → v ∈ r) →
      ∀ u ∈ l.foldl (fun r s => addPkgF packages (packages.length + 1) s r) r,
      ∀ v, depStep packages u v → (List.lookup v packages).isSome →
        v ∈ l.foldl (fun r s => addPkgF packages (packages.length + 1) s r) r := by
  intro l
  induction l with
  | nil => intro r hr; exact hr
  | cons s rest ihl =>
    intro r hr
    rw [List.foldl_cons]
    apply ihl
    intro u hu v hsv hvs
    by_cases hur : u ∈ r
    · exact addPkgF_mono packages _ s r (hr u hur v hsv hvs)
    · exact addPkgF_closed packages _ s r (unvisitedCount_lt_fuel packages r)
        u hu hur v hsv hvs

theorem gather_closed (names : List String)
    (packages : List (String × PackageEntry)) :
    ∀ u ∈ gather_dependencies names packages, ∀ v, depStep packages u v →
      (List.lookup v packages).isSome → v ∈ gather_dependencies names packages := by
  unfold gather_dependencies
  exact gather_fold_closed packages names []
    (fun u hu => absurd hu (List.not_mem_nil u))

theorem gather_start_mem (names : List String)
    (packages : List (String × PackageEntry)) :
    ∀ s ∈ names, (List.lookup s packages).isSome →
      s ∈ gather_dependencies names packages := by
  unfold gather_dependencies
  have key : ∀ (l : List String) (r : List String) (s : String),
      (s ∈ r ∨ (s ∈ l ∧ (List.lookup s packages).isSome)) →
      s ∈ l.foldl (fun r x => addPkgF packages (packages.length + 1) x r) r := by
    intro l
    induction l with
    | nil =>
      intro r s h
      rcases h with h | ⟨h, -⟩
      · exact h
      · exact absurd h (List.not_mem_nil s)
    | cons x rest ihl =>
      intro r s h
      rw [List.foldl_cons]
      apply ihl
      rcases h with h | ⟨h, hs⟩
      · exact Or.inl (addPkgF_mono packages _ x r h)
      · rcases List.mem_cons.mp h with heq | hmem
        · rw [heq]
          exact Or.inl (addPkgF_self_mem packages _ x r (by omega) (heq ▸ hs))
        · exact Or.inr ⟨hmem, hs⟩
  intro s hs hsome
  exact key names [] s (Or.inr ⟨hs, hsome⟩)

theorem reach_mem_of_closed {packages : List (String × PackageEntry)}
    {S : List String}
    (hcl : ∀ u ∈ S, ∀ v, depStep packages u v →
      (List.lookup v packages).isSome → v ∈ S)
    {s x : String} (hr : Relation.ReflTransGen (depStep packages) s x)
    (hx : (List.lookup x packages).isSome) :
    s ∈ S → x ∈ S := by
  induction hr using Relation.ReflTransGen.head_induction_on with
  | refl => exact fun hs => hs
  | head h1 h2 ih =>
    intro hs
    rcases Relation.ReflTransGen.cases_head h2 with heq | ⟨w, hw, -⟩
    · subst heq
      exact hcl _ hs _ h1 hx
    · obtain ⟨info, hlc, -⟩ := hw
      exact ih (hcl _ hs _ h1 (by simp [hlc]))

theorem gather_mem_iff (names : List String)
    (packages : List (String × PackageEntry)) (x : String) :
    x ∈ gather_dependencies names packages ↔
      (∃ s ∈ names, Relation.ReflTransGen (depStep packages) s x) ∧
      (List.lookup x packages).isSome := by
  constructor
  · have key : ∀ (l : List String) (r : List String),
        ∀ y ∈ l.foldl (fun r s => addPkgF packages (packages.length + 1) s r) r,
          y ∈ r ∨ ((∃ s ∈ l, Relation.ReflTransGen (depStep packages) s y) ∧
            (List.lookup y packages).isSome) := by
      intro l
      induction l with
      | nil => intro r y hy; exact Or.inl hy
      | cons s rest ihl =>
        intro r y hy
        rw [List.foldl_cons] at hy
        rcases ihl _ y hy with h1 | ⟨⟨s', hs', hr'⟩, hsome⟩
        · rcases addPkgF_sound packages _ s r y h1 with h2 | ⟨h2, h3⟩
          · exact Or.inl h2
          · exact Or.inr ⟨⟨s, List.mem_cons_self _ _, h2⟩, h3⟩
        · exact Or.inr ⟨⟨s', List.mem_cons_of_mem _ hs', hr'⟩, hsome⟩
    intro hx
    rcases key names [] x hx with h | h
    · exact absurd h (List.not_mem_nil x)
    · exact h
  · rintro ⟨⟨s, hs, hr⟩, hx⟩
    have hssome : (List.lookup s packages).isSome := by
      rcases Relation.ReflTransGen.cases_head hr with heq | ⟨w, hw, -⟩
      · rw [heq]; exact hx
      · obtain ⟨info, hlc, -⟩ := hw
        simp [hlc]
    exact reach_mem_of_closed (gather_closed names packages) hr hx
      (gather_start_mem names packages s hs hssome)

theorem mem_stableInsert (key : String → Nat) (x y : String) :
    ∀ l : List String, (y ∈ stableInsert key x l ↔ y = x ∨ y ∈ l) := by
  intro l
  induction l with
  | nil => simp [stableInsert]
  | cons z zs ih =>
    simp only [stableInsert]
    by_cases h : key z < key x
    · rw [if_pos h]
      simp only [List.mem_cons, ih]
      tauto
    · rw [if_neg h]
      simp only [List.mem_cons]

theorem mem_sortByKey (key : String → Nat) (l : List String) (x : String) :
    x ∈ sortByKey key l ↔ x ∈ l := by
  unfold sortByKey
  induction l with
  | nil => simp
  | cons y ys ih =>
    rw [List.foldr_cons, mem_stableInsert, ih]
    simp [List.mem_cons]

theorem filterInstallOrder_missing (plan : ResolvePlan) (filt : List String)
    (incl : Bool) (hne : filt ≠ [])
    (hm : filt.filter (fun p => (List.lookup p plan.packages).isNone) ≠ []) :
    filterInstallOrder plan filt incl =
      Except.error (FilterError.unknownPackages
        (filt.filter (fun p => (List.lookup p plan.packages).isNone))
        (plan.packages.map (·.1))) := by
  simp only [filterInstallOrder]
  rw [if_neg (by simpa [List.isEmpty_iff] using hne),
      if_neg (by simpa [List.isEmpty_iff] using hm)]

theorem filterInstallOrder_ok_deps (plan : ResolvePlan) (filt : List String)
    (hne : filt ≠ [])
    (hall : filt.filter (fun p => (List.lookup p plan.packages).isNone) = []) :
    filterInstallOrder plan filt true =
      Except.ok
        (sortByKey (buildIndexKey plan)
          (plan.install_order.filter (fun p =>
            (gather_dependencies filt plan.packages).contains p)),
         (gather_dependencies filt plan.packages).filter
           (fun x => !filt.contains x)) := by
  simp only [filterInstallOrder]
  rw [if_neg (by simpa [List.isEmpty_iff] using hne),
      if_pos (by simpa [List.isEmpty_iff] using hall)]
  rfl

theorem filterInstallOrder_ok_nodeps (plan : ResolvePlan) (filt : List String)
    (hne : filt ≠ [])
    (hall : filt.filter (fun p => (List.lookup p plan.packages).isNone) = []) :
    filterInstallOrder plan filt false =
      Except.ok
        (sortByKey (buildIndexKey plan)
          (plan.install_order.filter (fun p => filt.contains p)),
         filt.filter (fun x => !filt.contains x)) := by
  simp only [filterInstallOrder]
  rw [if_neg (by simpa [List.isEmpty_iff] using hne),
      if_pos (by simpa [List.isEmpty_iff] using hall)]
  rfl

/-! ### Claim C9 -/

/-- **C9**: when a package filter is supplied (a non-empty list), every
requested name must exist in the plan or the run fails listing the missing
names and the available set; with `includeDependencies = true` the executed
set is the transitive closure of the filter over the `dependencies` field
(restricted, as the visited-set recursion does, to names present in the
package map), the names added purely as dependencies are reported, and with
`includeDependencies = false` only the filter set itself executes. -/
theorem c9_filtering (plan : ResolvePlan) (filt : List String)
    (hne : filt ≠ []) :
    (∀ missing,
      missing = filt.filter (fun p => (List.lookup p plan.packages).isNone) →
      missing ≠ [] →
      ∀ incl, filterInstallOrder plan filt incl =
        Except.error (FilterError.unknownPackages missing
          (plan.packages.map (·.1)))) ∧
    ((∀ p ∈ filt, (List.lookup p plan.packages).isSome) →
      (∃ order rep, filterInstallOrder plan filt true = Except.ok (order, rep) ∧
        (∀ x, x ∈ order ↔ x ∈ plan.install_order ∧
          ((∃ s ∈ filt, Relation.ReflTransGen (depStep plan.packages) s x) ∧
            (List.lookup x plan.packages).isSome)) ∧
        (∀ x, x ∈ rep ↔
          ((∃ s ∈ filt, Relation.ReflTransGen (depStep plan.packages) s x) ∧
            (List.lookup x plan.packages).isSome) ∧ x ∉ filt)) ∧
      (∃ order rep, filterInstallOrder plan filt false = Except.ok (order, rep) ∧
        (∀ x, x ∈ order ↔ x ∈ plan.install_order ∧ x ∈ filt) ∧ rep = [])) := by
  constructor
  · intro missing hmiss hmne incl
    subst hmiss
    exact filterInstallOrder_missing plan filt incl hne hmne
  · intro hall
    have hfnil : filt.filter (fun p => (List.lookup p plan.packages).isNone) = [] := by
      rw [List.filter_eq_nil_iff]
      intro p hp
      have h2 := hall p hp
      cases hlk : List.lookup p plan.packages with
      | none => rw [hlk] at h2; simp at h2
      | some e => simp [hlk]
    constructor
    · refine ⟨_, _, filterInstallOrder_ok_deps plan filt hne hfnil, ?_, ?_⟩
      · intro x
        rw [mem_sortByKey, List.mem_filter]
        constructor
        · rintro ⟨hxo, hxb⟩
          exact ⟨hxo, (gather_mem_iff filt plan.packages x).mp
            ((contains_iff_mem _ x).mp hxb)⟩
        · rintro ⟨hxo, hxg⟩
          exact ⟨hxo, (contains_iff_mem _ x).mpr
            ((gather_mem_iff filt plan.packages x).mpr hxg)⟩
      · intro x
        rw [List.mem_filter]
        constructor
        · rintro ⟨hxg, hxf⟩
          refine ⟨(gather_mem_iff filt plan.packages x).mp hxg, ?_⟩
          intro hxin
          rw [Bool.not_eq_true', ← Bool.not_eq_true] at hxf
          exact hxf ((contains_iff_mem _ x).mpr hxin)
        · rintro ⟨hxg, hxf⟩
          refine ⟨(gather_mem_iff filt plan.packages x).mpr hxg, ?_⟩
          rw [Bool.not_eq_true']
          cases hc : filt.contains x with
          | false => rfl
          | true => exact absurd ((contains_iff_mem _ x).mp hc) hxf
    · refine ⟨_, _, filterInstallOrder_ok_nodeps plan filt hne hfnil, ?_, ?_⟩
      · intro x
        rw [mem_sortByKey, List.mem_filter]
        constructor
        · rintro ⟨hxo, hxb⟩
          exact ⟨hxo, (contains_iff_mem _ x).mp hxb⟩
        · rintro ⟨hxo, hxf⟩
          exact ⟨hxo, (contains_iff_mem _ x).mpr hxf⟩
      · rw [List.filter_eq_nil_iff]
        intro x hx
        simpa using hx

/-- C9 witness: `c9_filtering` on the chain A → B → C with filter `["C"]` —
with dependencies the whole chain is selected and A, B are reported as added
purely as dependencies; without dependencies only C is selected. -/
theorem c9_filtering_witness :
    (["C"] : List String) ≠ [] ∧
    (∃ order rep,
      filterInstallOrder chainPlanABC ["C"] true = Except.ok (order, rep) ∧
      "A" ∈ order ∧ "B" ∈ order ∧ "C" ∈ order ∧ "A" ∈ rep ∧ "B" ∈ rep ∧
        "C" ∉ rep) ∧
    (∃ order rep,
      filterInstallOrder chainPlanABC ["C"] false = Except.ok (order, rep) ∧
      "C" ∈ order ∧ "A" ∉ order ∧ rep = []) := by
  have hne : (["C"] : List String) ≠ [] := by decide
  obtain ⟨-, hb⟩ := c9_filtering chainPlanABC ["C"] hne
  obtain ⟨⟨order, rep, hok, hord, hrep⟩, ⟨order2, rep2, hok2, hord2, hrep2⟩⟩ :=
    hb (by decide)
  have hCB : depStep chainPlanABC.packages "C" "B" :=
    ⟨⟨3, "C", "", none, "t", "/sc", "/ic", "/bc", [], [], [], [⟨"B", "uB", "t"⟩]⟩,
      by decide, by decide⟩
  have hBA : depStep chainPlanABC.packages "B" "A" :=
    ⟨⟨2, "B", "", none, "t", "/sb", "/ib", "/bb", [], [], [], [⟨"A", "uA", "t"⟩]⟩,
      by decide, by decide⟩
  have hreachA : ∃ s ∈ (["C"] : List String),
      Relation.ReflTransGen (depStep chainPlanABC.packages) s "A" :=
    ⟨"C", by decide, Relation.ReflTransGen.head hCB
      (Relation.ReflTransGen.single hBA)⟩
  have hreachB : ∃ s ∈ (["C"] : List String),
      Relation.ReflTransGen (depStep chainPlanABC.packages) s "B" :=
    ⟨"C", by decide, Relation.ReflTransGen.single hCB⟩
  have hreachC : ∃ s ∈ (["C"] : List String),
      Relation.ReflTransGen (depStep chainPlanABC.packages) s "C" :=
    ⟨"C", by decide, Relation.ReflTransGen.refl⟩
  refine ⟨hne,
    ⟨order, rep, hok, ?_, ?_, ?_, ?_, ?_, ?_⟩,
    ⟨order2, rep2, hok2, ?_, ?_, hrep2⟩⟩
  · exact (hord "A").mpr ⟨by decide, hreachA, by decide⟩
  · exact (hord "B").mpr ⟨by decide, hreachB, by decide⟩
  · exact (hord "C").mpr ⟨by decide, hreachC, by decide⟩
  · exact (hrep "A").mpr ⟨⟨hreachA, by decide⟩, by decide⟩
  · exact (hrep "B").mpr ⟨⟨hreachB, by decide⟩, by decide⟩
  · intro hc
    exact absurd ((hrep "C").mp hc).2 (by decide)
  · exact (hord2 "C").mpr ⟨by decide, by decide⟩
  · intro hc
    exact absurd ((hord2 "A").mp hc).2 (by decide)

/-! ### Kahn-loop state lemmas (for claims C1 and C3) -/

theorem updKey_keys (deg : List (String × Nat)) (k : String) :
    (updKey deg k).map (·.1) = deg.map (·.1) := by
  induction deg with
  | nil => rfl
  | cons p rest ih =>
    simp only [updKey, List.map_cons] at ih ⊢
    by_cases h : p.1 = k
    · rw [if_pos h]; simp [ih]
    · rw [if_neg h]; simp [ih]

theorem updKey_lookup (k : String) :
    ∀ (deg : List (String × Nat)) (x : String),
      List.lookup x (updKey deg k) =
        if x = k then (List.lookup x deg).map (fun d => d - 1)
        else List.lookup x deg := by
  intro deg
  induction deg with
  | nil => intro x; by_cases h : x = k <;> simp [updKey, h]
  | cons p rest ih =>
    obtain ⟨a, b⟩ := p
    intro x
    have ihx := ih x
    simp only [updKey, List.map_cons] at ihx ⊢
    by_cases hxa : x = a
    · subst hxa
      by_cases hxk : x = k
      · rw [if_pos hxk, if_pos (show (x, b).1 = k from hxk),
            List.lookup_cons_self, List.lookup_cons_self]
        rfl
      · rw [if_neg hxk, if_neg (show ¬ (x, b).1 = k from hxk),
            List.lookup_cons_self, List.lookup_cons_self]
    · have hgoal : List.lookup x
          ((if (a, b).1 = k then ((a, b).1, (a, b).2 - 1) else (a, b)) ::
            List.map (fun p => if p.1 = k then (p.1, p.2 - 1) else p) rest) =
          List.lookup x
            (List.map (fun p => if p.1 = k then (p.1, p.2 - 1) else p) rest) := by
        by_cases hpk : (a, b).1 = k
        · rw [if_pos hpk]
          exact lookup_cons_ne _ _ hxa
        · rw [if_neg hpk]
          exact lookup_cons_ne _ _ hxa
      rw [hgoal, ihx, lookup_cons_ne b rest hxa]

theorem sum_updKey_le (deg : List (String × Nat)) (n : String) :
    ((updKey deg n).map (·.2)).sum ≤ (deg.map (·.2)).sum := by
  induction deg with
  | nil => exact Nat.le_refl _
  | cons p rest ih =>
    simp only [updKey, List.map_cons, List.sum_cons] at ih ⊢
    by_cases h : p.1 = n
    · rw [if_pos h]
      simp only []
      omega
    · rw [if_neg h]
      omega

theorem sum_updKey_lt :
    ∀ (deg : List (String × Nat)) (n : String) (d : Nat),
      List.lookup n deg = some d → 1 ≤ d →
      ((updKey deg n).map (·.2)).sum + 1 ≤ (deg.map (·.2)).sum := by
  intro deg
  induction deg with
  | nil => intro n d h _; simp at h
  | cons p rest ih =>
    obtain ⟨a, b⟩ := p
    intro n d h hd
    simp only [updKey, List.map_cons, List.sum_cons]
    by_cases han : a = n
    · subst han
      rw [List.lookup_cons_self] at h
      have hbd : b = d := by simpa using h
      subst hbd
      rw [if_pos rfl]
      have h2 := sum_updKey_le rest a
      simp only [updKey] at h2
      simp only []
      omega
    · rw [lookup_cons_ne b rest (fun he : n = a => han he.symm)] at h
      rw [if_neg han]
      have h2 := ih n d h hd
      simp only [updKey] at h2
      omega

theorem stepNeighbors_measure :
    ∀ (ns : List String) (deg : List (String × Nat)) (queue : List String),
      degMeasure (stepNeighbors ns deg queue).1 (stepNeighbors ns deg queue).2 ≤
        degMeasure deg queue := by
  intro ns
  induction ns with
  | nil => intro deg queue; exact Nat.le_refl _
  | cons n ns ih =>
    intro deg queue
    simp only [stepNeighbors]
    by_cases h : List.lookup n deg = some 1
    · rw [if_pos h]
      refine Nat.le_trans (ih (updKey deg n) (queue ++ [n])) ?_
      unfold degMeasure
      have h1 := sum_updKey_lt deg n 1 h (Nat.le_refl 1)
      rw [List.length_append]
      simp only [List.length_cons, List.length_nil]
      omega
    · rw [if_neg h]
      refine Nat.le_trans (ih (updKey deg n) queue) ?_
      unfold degMeasure
      have h1 := sum_updKey_le deg n
      omega

theorem lookup_map_snd {α β : Type} (h : α → β) :
    ∀ (m : List (String × α)) (x : String),
      List.lookup x (m.map (fun p => (p.1, h p.2))) = (List.lookup x m).map h := by
  intro m
  induction m with
  | nil => intro x; simp
  | cons p rest ih =>
    obtain ⟨a, b⟩ := p
    intro x
    simp only [List.map_cons]
    by_cases hxa : x = a
    · subst hxa
      rw [List.lookup_cons_self, List.lookup_cons_self]
      rfl
    · rw [lookup_cons_ne _ _ hxa, lookup_cons_ne _ _ hxa]
      exact ih x

theorem nodup_lookup_of_mem {α : Type} :
    ∀ {m : List (String × α)} {k : String} {v : α},
      (m.map (·.1)).Nodup → (k, v) ∈ m → List.lookup k m = some v := by
  intro m
  induction m with
  | nil => intro k v _ h; simp at h
  | cons p rest ih =>
    obtain ⟨a, b⟩ := p
    intro k v hnd hm
    simp only [List.map_cons, List.nodup_cons] at hnd
    rcases List.mem_cons.mp hm with heq | hmem
    · obtain ⟨h1, h2⟩ := Prod.mk.injEq .. ▸ congrArg id heq
      rw [show k = a from congrArg Prod.fst heq]
      rw [List.lookup_cons_self]
      rw [show v = b from congrArg Prod.snd heq]
    · have hka : ¬ k = a := by
        intro he
        subst he
        exact hnd.1 (List.mem_map.mpr ⟨(k, v), hmem, rfl⟩)
      rw [lookup_cons_ne b rest hka]
      exact ih hnd.2 hmem

theorem stepNeighbors_deg :
    ∀ (ns : List String) (deg : List (String × Nat)) (queue : List String),
      ((stepNeighbors ns deg queue).1.map (·.1) = deg.map (·.1)) ∧
      (∀ x d, List.lookup x deg = some d →
        List.lookup x (stepNeighbors ns deg queue).1 = some (d - ns.count x)) ∧
      (∀ x, List.lookup x deg = none →
        List.lookup x (stepNeighbors ns deg queue).1 = none) := by
  intro ns
  induction ns with
  | nil =>
    intro deg queue
    refine ⟨rfl, ?_, fun x h => h⟩
    intro x d h
    rw [List.count_nil, Nat.sub_zero]
    exact h
  | cons n ns ih =>
    intro deg queue
    simp only [stepNeighbors]
    obtain ⟨ih1, ih2, ih3⟩ := ih (updKey deg n)
      (if List.lookup n deg = some 1 then queue ++ [n] else queue)
    refine ⟨by rw [ih1, updKey_keys], ?_, ?_⟩
    · intro x d hx
      by_cases hxn : x = n
      · subst hxn
        have hlk : List.lookup x (updKey deg x) = some (d - 1) := by
          rw [updKey_lookup, if_pos rfl, hx]
          rfl
        rw [ih2 x (d - 1) hlk, List.count_cons_self]
        congr 1
        omega
      · have hlk : List.lookup x (updKey deg n) = some d := by
          rw [updKey_lookup, if_neg hxn]
          exact hx
        rw [ih2 x d hlk, List.count_cons_of_ne hxn]
    · intro x hx
      apply ih3
      rw [updKey_lookup]
      by_cases hxn : x = n
      · rw [if_pos hxn, hx]
        rfl
      · rw [if_neg hxn]
        exact hx

theorem stepNeighbors_queue :
    ∀ (ns : List String) (deg : List (String × Nat)) (queue : List String),
      ∀ x, x ∈ (stepNeighbors ns deg queue).2 ↔ x ∈ queue ∨
        (∃ d, List.lookup x deg = some d ∧ 1 ≤ d ∧ d ≤ ns.count x) := by
  intro ns
  induction ns with
  | nil =>
    intro deg queue x
    constructor
    · exact fun h => Or.inl h
    · rintro (h | ⟨d, -, h1, h2⟩)
      · exact h
      · rw [List.count_nil] at h2
        omega
  | cons n ns ih =>
    intro deg queue x
    simp only [stepNeighbors]
    by_cases h : List.lookup n deg = some 1
    · rw [if_pos h, ih (updKey deg n) (queue ++ [n]) x]
      constructor
      · rintro (hq | ⟨d, hd, h1, h2⟩)
        · rcases List.mem_append.mp hq with hq | hq
          · exact Or.inl hq
          · have hxn : x = n := by simpa using hq
            subst hxn
            exact Or.inr ⟨1, h, Nat.le_refl 1, by rw [List.count_cons_self]; omega⟩
        · rw [updKey_lookup] at hd
          by_cases hxn : x = n
          · rw [if_pos hxn] at hd
            subst hxn
            rw [h] at hd
            simp at hd
            omega
          · rw [if_neg hxn] at hd
            exact Or.inr ⟨d, hd, h1, by rw [List.count_cons_of_ne hxn]; omega⟩
      · rintro (hq | ⟨d, hd, h1, h2⟩)
        · exact Or.inl (List.mem_append.mpr (Or.inl hq))
        · by_cases hxn : x = n
          · subst hxn
            exact Or.inl (List.mem_append.mpr (Or.inr (List.mem_singleton_self x)))
          · refine Or.inr ⟨d, ?_, h1, ?_⟩
            · rw [updKey_lookup, if_neg hxn]
              exact hd
            · rw [List.count_cons_of_ne hxn] at h2
              exact h2
    · rw [if_neg h, ih (updKey deg n) queue x]
      constructor
      · rintro (hq | ⟨d, hd, h1, h2⟩)
        · exact Or.inl hq
        · rw [updKey_lookup] at hd
          by_cases hxn : x = n
          · rw [if_pos hxn] at hd
            subst hxn
            cases hoc : List.lookup x deg with
            | none => rw [hoc] at hd; simp at hd
            | some d0 =>
              rw [hoc] at hd
              simp at hd
              refine Or.inr ⟨d0, rfl, ?_, ?_⟩
              · omega
              · rw [List.count_cons_self]
                omega
          · rw [if_neg hxn] at hd
            exact Or.inr ⟨d, hd, h1, by rw [List.count_cons_of_ne hxn]; omega⟩
      · rintro (hq | ⟨d, hd, h1, h2⟩)
        · exact Or.inl hq
        · by_cases hxn : x = n
          · subst hxn
            have hd1 : ¬ d = 1 := fun he => h (he ▸ hd)
            refine Or.inr ⟨d - 1, ?_, ?_, ?_⟩
            · rw [updKey_lookup, if_pos rfl, hd]
              rfl
            · omega
            · rw [List.count_cons_self] at h2
              omega
          · refine Or.inr ⟨d, ?_, h1, ?_⟩
            · rw [updKey_lookup, if_neg hxn]
              exact hd
            · rw [List.count_cons_of_ne hxn] at h2
              exact h2

theorem stepNeighbors_nodup :
    ∀ (ns : List String) (deg : List (String × Nat)) (queue : List String),
      queue.Nodup → (∀ x ∈ queue, List.lookup x deg = some 0) →
      (stepNeighbors ns deg queue).2.Nodup := by
  intro ns
  induction ns with
  | nil => intro deg queue h _; exact h
  | cons n ns ih =>
    intro deg queue hnd h0
    simp only [stepNeighbors]
    by_cases h : List.lookup n deg = some 1
    · rw [if_pos h]
      have hnq : n ∉ queue := by
        intro hnq
        have := (h0 n hnq).symm.trans h
        simp at this
      apply ih
      · rw [List.nodup_append]
        refine ⟨hnd, List.nodup_singleton n, ?_⟩
        intro a ha han
        rw [List.mem_singleton] at han
        exact hnq (han ▸ ha)
      · intro x hx
        rcases List.mem_append.mp hx with hx1 | hx1
        · rw [updKey_lookup]
          by_cases hxn : x = n
          · subst hxn
            exact absurd hx1 hnq
          · rw [if_neg hxn]
            exact h0 x hx1
        · have hxn : x = n := by simpa using hx1
          subst hxn
          rw [updKey_lookup, if_pos rfl, h]
          rfl
    · rw [if_neg h]
      apply ih _ _ hnd
      intro x hx
      rw [updKey_lookup]
      by_cases hxn : x = n
      · rw [if_pos hxn, h0 x hx]
        rfl
      · rw [if_neg hxn]
        exact h0 x hx

theorem count_flatMap_deps (u : String) :
    ∀ (pd : PackagesData), (pd.map (·.1)).Nodup →
      ∀ v info, List.lookup v pd = some info →
        (pd.flatMap (fun p => ((depNamesOf p.2).filter (fun d => d == u)).map
          (fun _ => p.1))).count v =
          ((depNamesOf info).filter (fun d => d == u)).length := by
  intro pd
  induction pd with
  | nil => intro _ v info h; simp at h
  | cons p rest ih =>
    obtain ⟨a, b⟩ := p
    intro hnd v info h
    simp only [List.map_cons, List.nodup_cons] at hnd
    rw [List.flatMap_cons, List.count_append]
    by_cases hva : v = a
    · subst hva
      rw [List.lookup_cons_self] at h
      have hib : b = info := by simpa using h
      subst hib
      have h1 : (((depNamesOf b).filter (fun d => d == u)).map
          (fun _ => v)).count v =
          ((depNamesOf b).filter (fun d => d == u)).length := by
        rw [List.map_const', List.count_replicate_self]
      have h2 : (rest.flatMap (fun p => ((depNamesOf p.2).filter
          (fun d => d == u)).map (fun _ => p.1))).count v = 0 := by
        rw [List.count_eq_zero]
        intro hmem
        rcases List.mem_flatMap.mp hmem with ⟨q, hq, hvq⟩
        rcases List.mem_map.mp hvq with ⟨-, -, hq1⟩
        exact hnd.1 (List.mem_map.mpr ⟨q, hq, hq1⟩)
      rw [h1, h2, Nat.add_zero]
    · rw [lookup_cons_ne b rest hva] at h
      have h1 : (((depNamesOf b).filter (fun d => d == u)).map
          (fun _ => a)).count v = 0 := by
        rw [List.count_eq_zero]
        intro hmem
        rcases List.mem_map.mp hmem with ⟨-, -, hq1⟩
        exact hva hq1.symm
      rw [h1, ih hnd.2 v info h, Nat.zero_add]

theorem mem_adj_iff (pd : PackagesData) (u v : String) :
    v ∈ adj pd u ↔ u ∈ pkgNames pd ∧
      ∃ info, (v, info) ∈ pd ∧ u ∈ depNamesOf info := by
  unfold adj
  by_cases hu : u ∈ pkgNames pd
  · rw [if_pos hu]
    constructor
    · intro hv
      rcases List.mem_flatMap.mp hv with ⟨p, hp, hvp⟩
      rcases List.mem_map.mp hvp with ⟨d, hd, heq⟩
      rcases List.mem_filter.mp hd with ⟨hdmem, hdu⟩
      refine ⟨hu, p.2, ?_, ?_⟩
      · rw [← heq]
        exact hp
      · have hdeq : d = u := by simpa using hdu
        exact hdeq ▸ hdmem
    · rintro ⟨-, info, hmem, hdep⟩
      apply List.mem_flatMap.mpr
      refine ⟨(v, info), hmem, ?_⟩
      apply List.mem_map.mpr
      exact ⟨u, List.mem_filter.mpr ⟨hdep, by simp⟩, rfl⟩
  · rw [if_neg hu]
    simp [hu]

theorem remDeg_mono (pd : PackagesData) {done d₂ : List String}
    (h : done ⊆ d₂) (x : String) :
    remDeg pd d₂ x ≤ remDeg pd done x := by
  unfold remDeg
  cases List.lookup x pd with
  | none => exact Nat.le_refl 0
  | some info =>
    refine List.Sublist.length_le (List.monotone_filter_right _ ?_)
    intro d hd
    simp only [decide_eq_true_eq] at hd ⊢
    exact ⟨hd.1, fun hmem => hd.2 (h hmem)⟩

theorem length_filter_split (cur : String) :
    ∀ (xs : List String) (P : String → Bool), P cur = true →
      (xs.filter P).length =
        (xs.filter (fun d => P d && !(d == cur))).length +
          (xs.filter (fun d => d == cur)).length := by
  intro xs
  induction xs with
  | nil => intro P _; rfl
  | cons d rest ih =>
    intro P hP
    have ihr := ih P hP
    rw [← List.countP_eq_length_filter, ← List.countP_eq_length_filter,
        ← List.countP_eq_length_filter] at ihr ⊢
    by_cases hdc : d = cur
    · subst hdc
      rw [List.countP_cons_of_pos _ _ hP,
          List.countP_cons_of_neg _ _ (by simp),
          List.countP_cons_of_pos _ _ (by simp)]
      omega
    · by_cases hPd : P d = true
      · rw [List.countP_cons_of_pos _ _ hPd,
            List.countP_cons_of_pos _ _ (by simp [hPd, hdc]),
            List.countP_cons_of_neg _ _ (by simp [hdc])]
        omega
      · rw [List.countP_cons_of_neg _ _ hPd,
            List.countP_cons_of_neg _ _ (by simp [hPd]),
            List.countP_cons_of_neg _ _ (by simp [hdc])]
        omega

theorem remDeg_eq_some {pd : PackagesData} {info : PkgInfo} (done : List String)
    {x : String} (h : List.lookup x pd = some info) :
    remDeg pd done x = ((depNamesOf info).filter
      (fun d => decide (d ∈ pkgNames pd ∧ d ∉ done))).length := by
  simp only [remDeg, h]

theorem remDeg_eq_none {pd : PackagesData} (done : List String) {x : String}
    (h : List.lookup x pd = none) : remDeg pd done x = 0 := by
  simp only [remDeg, h]

theorem remDeg_step (pd : PackagesData) (done : List String) (cur : String)
    (hcur : cur ∈ pkgNames pd) (hcd : cur ∉ done) (x : String) (info : PkgInfo)
    (hlk : List.lookup x pd = some info) :
    remDeg pd done x =
      remDeg pd (done ++ [cur]) x +
        ((depNamesOf info).filter (fun d => d == cur)).length := by
  rw [remDeg_eq_some done hlk, remDeg_eq_some (done ++ [cur]) hlk]
  rw [length_filter_split cur (depNamesOf info)
    (fun d => decide (d ∈ pkgNames pd ∧ d ∉ done)) (by simp [hcur, hcd])]
  have hcong : (depNamesOf info).filter
      (fun d => decide (d ∈ pkgNames pd ∧ d ∉ done) && !(d == cur)) =
      (depNamesOf info).filter
        (fun d => decide (d ∈ pkgNames pd ∧ d ∉ done ++ [cur])) := by
    apply List.filter_congr
    intro d _
    rw [Bool.eq_iff_iff]
    simp only [Bool.and_eq_true, Bool.not_eq_true', beq_eq_false_iff_ne,
      decide_eq_true_eq, List.mem_append, List.mem_singleton]
    constructor
    · rintro ⟨⟨h1, h2⟩, h3⟩
      exact ⟨h1, fun hc => hc.elim h2 h3⟩
    · rintro ⟨h1, h2⟩
      exact ⟨⟨h1, fun hc => h2 (Or.inl hc)⟩, fun hc => h2 (Or.inr hc)⟩
  rw [hcong]

theorem initialDeg_keys (pd : PackagesData) :
    (initialDeg pd).map (·.1) = pkgNames pd := by
  unfold initialDeg pkgNames
  rw [List.map_map]
  rfl

theorem initialDeg_lookup (pd : PackagesData) (x : String) :
    List.lookup x (initialDeg pd) = (List.lookup x pd).map (inDegreeOf pd) :=
  lookup_map_snd (inDegreeOf pd) pd x

theorem inDegreeOf_eq_remDeg (pd : PackagesData) (x : String) (info : PkgInfo)
    (h : List.lookup x pd = some info) :
    inDegreeOf pd info = remDeg pd [] x := by
  unfold inDegreeOf remDeg
  rw [h]
  congr 1
  apply List.filter_congr
  intro d _
  rw [Bool.eq_iff_iff]
  simp [contains_iff_mem]

theorem pkgNames_lookup_isSome (pd : PackagesData) (x : String) :
    (List.lookup x pd).isSome = true ↔ x ∈ pkgNames pd :=
  lookup_isSome_iff_mem_keys pd x

theorem initialQueue_mem (pd : PackagesData) (x : String) :
    x ∈ initialQueue pd ↔ x ∈ pkgNames pd ∧ remDeg pd [] x = 0 := by
  unfold initialQueue
  rw [List.mem_filter]
  constructor
  · rintro ⟨h1, h2⟩
    refine ⟨h1, ?_⟩
    rw [beq_iff_eq, initialDeg_lookup] at h2
    cases hlk : List.lookup x pd with
    | none =>
      have := (pkgNames_lookup_isSome pd x).mpr h1
      rw [hlk] at this
      simp at this
    | some info =>
      rw [hlk] at h2
      simp only [Option.map_some'] at h2
      have hz : inDegreeOf pd info = 0 := by simpa using h2
      rw [← inDegreeOf_eq_remDeg pd x info hlk]
      exact hz
  · rintro ⟨h1, h2⟩
    refine ⟨h1, ?_⟩
    rw [beq_iff_eq, initialDeg_lookup]
    cases hlk : List.lookup x pd with
    | none =>
      have := (pkgNames_lookup_isSome pd x).mpr h1
      rw [hlk] at this
      simp at this
    | some info =>
      simp only [Option.map_some']
      rw [inDegreeOf_eq_remDeg pd x info hlk, h2]

theorem remDeg_pos_pred (pd : PackagesData) (done : List String) (x : String)
    (h : remDeg pd done x ≠ 0) :
    ∃ u, u ∈ pkgNames pd ∧ u ∉ done ∧ depEdge pd u x := by
  cases hlk : List.lookup x pd with
  | none => rw [remDeg_eq_none done hlk] at h; exact absurd rfl h
  | some info =>
    rw [remDeg_eq_some done hlk] at h
    have hne : ((depNamesOf info).filter
        (fun d => decide (d ∈ pkgNames pd ∧ d ∉ done))) ≠ [] := by
      intro hc
      rw [hc] at h
      exact h rfl
    obtain ⟨d, hd⟩ := List.exists_mem_of_ne_nil _ hne
    obtain ⟨hdm, hdp⟩ := List.mem_filter.mp hd
    rw [decide_eq_true_eq] at hdp
    refine ⟨d, hdp.1, hdp.2, ?_⟩
    unfold depEdge
    rw [mem_adj_iff]
    exact ⟨hdp.1, info, lookup_mem hlk, hdm⟩

theorem cycle_of_all_have_pred {edge : String → String → Prop}
    {S : List String} (hne : S ≠ [])
    (hpred : ∀ x ∈ S, ∃ u, u ∈ S ∧ edge u x) :
    ∃ v, Relation.TransGen edge v v := by
  classical
  have hf : ∀ x, ∃ u, x ∈ S → u ∈ S ∧ edge u x := by
    intro x
    by_cases hx : x ∈ S
    · obtain ⟨u, hu⟩ := hpred x hx
      exact ⟨u, fun _ => hu⟩
    · exact ⟨x, fun hc => absurd hc hx⟩
  choose g hgs using hf
  obtain ⟨x₀, hx₀⟩ := List.exists_mem_of_ne_nil S hne
  have hiter : ∀ i, g^[i] x₀ ∈ S := by
    intro i
    induction i with
    | zero => exact hx₀
    | succ i ih =>
      rw [Function.iterate_succ_apply']
      exact (hgs _ ih).1
  have hedge : ∀ i, edge (g^[i + 1] x₀) (g^[i] x₀) := by
    intro i
    rw [Function.iterate_succ_apply']
    exact (hgs _ (hiter i)).2
  have hchain : ∀ a b, a < b → Relation.TransGen edge (g^[b] x₀) (g^[a] x₀) := by
    intro a b hab
    induction b with
    | zero => omega
    | succ b ihb =>
      by_cases hba : a = b
      · subst hba
        exact Relation.TransGen.single (hedge a)
      · exact Relation.TransGen.head (hedge b) (ihb (by omega))
  have hcard : S.toFinset.card < (Finset.range (S.toFinset.card + 1)).card := by
    rw [Finset.card_range]
    omega
  obtain ⟨i, hi, j, hj, hij, heq⟩ :=
    Finset.exists_ne_map_eq_of_card_lt_of_maps_to hcard
      (fun i _ => List.mem_toFinset.mpr (hiter i))
  rcases Nat.lt_or_ge i j with hlt | hge
  · refine ⟨g^[j] x₀, ?_⟩
    have hh := hchain i j hlt
    rw [heq] at hh
    exact hh
  · have hlt : j < i := Nat.lt_of_le_of_ne hge (fun he => hij he.symm)
    refine ⟨g^[i] x₀, ?_⟩
    have hh := hchain j i hlt
    rw [← heq] at hh
    exact hh

theorem length_eq_of_nodup_subset_subset {l₁ l₂ : List String}
    (h₁ : l₁.Nodup) (h₂ : l₂.Nodup) (s₁ : l₁ ⊆ l₂) (s₂ : l₂ ⊆ l₁) :
    l₁.length = l₂.length :=
  Nat.le_antisymm (h₁.subperm s₁).length_le (h₂.subperm s₂).length_le

theorem kahnLoopF_spec (pd : PackagesData) (hnd : (pkgNames pd).Nodup) :
    ∀ (fuel : Nat) (deg : List (String × Nat)) (queue done : List String),
      degMeasure deg queue ≤ fuel →
      deg.map (·.1) = pkgNames pd →
      (∀ x ∈ pkgNames pd, List.lookup x deg = some (remDeg pd done x)) →
      (∀ x, x ∈ queue ↔ x ∈ pkgNames pd ∧ x ∉ done ∧ remDeg pd done x = 0) →
      queue.Nodup →
      done.Nodup →
      (∀ x ∈ done, x ∈ pkgNames pd) →
      (∀ x ∈ done, remDeg pd done x = 0) →
      (∀ u v, depEdge pd u v → v ∈ done → u ∈ done ∧
        done.indexOf u < done.indexOf v) →
      ((done ++ kahnLoopF (adj pd) fuel deg queue).Nodup ∧
       (∀ x ∈ kahnLoopF (adj pd) fuel deg queue, x ∈ pkgNames pd ∧ x ∉ done) ∧
       (∀ u v, depEdge pd u v →
         v ∈ done ++ kahnLoopF (adj pd) fuel deg queue →
         u ∈ done ++ kahnLoopF (adj pd) fuel deg queue ∧
         (done ++ kahnLoopF (adj pd) fuel deg queue).indexOf u <
           (done ++ kahnLoopF (adj pd) fuel deg queue).indexOf v) ∧
       (∀ x ∈ pkgNames pd, x ∉ done ++ kahnLoopF (adj pd) fuel deg queue →
         remDeg pd (done ++ kahnLoopF (adj pd) fuel deg queue) x ≠ 0)) := by
  intro fuel
  induction fuel with
  | zero =>
    intro deg queue done hm h1 h2 h3 h3n h4 h4b h6 h5
    have hkl : kahnLoopF (adj pd) 0 deg queue = [] := rfl
    rw [hkl, List.append_nil]
    refine ⟨h4, fun x hx => absurd hx (List.not_mem_nil x), h5, ?_⟩
    intro x hx hxd hz
    have hxq : x ∈ queue := (h3 x).mpr ⟨hx, hxd, hz⟩
    cases hq : queue with
    | nil => rw [hq] at hxq; exact List.not_mem_nil x hxq
    | cons a as =>
      unfold degMeasure at hm
      rw [hq, List.length_cons] at hm
      omega
  | succ f ih =>
    intro deg queue done hm h1 h2 h3 h3n h4 h4b h6 h5
    cases queue with
    | nil =>
      have hkl : kahnLoopF (adj pd) (f + 1) deg [] = [] := rfl
      rw [hkl, List.append_nil]
      refine ⟨h4, fun x hx => absurd hx (List.not_mem_nil x), h5, ?_⟩
      intro x hx hxd hz
      exact List.not_mem_nil x ((h3 x).mpr ⟨hx, hxd, hz⟩)
    | cons cur rest =>
      obtain ⟨hcn, hcd, hcz⟩ := (h3 cur).mp (List.mem_cons_self _ _)
      have hkl : kahnLoopF (adj pd) (f + 1) deg (cur :: rest) =
          cur :: kahnLoopF (adj pd) f
            (stepNeighbors (adj pd cur) deg rest).1
            (stepNeighbors (adj pd cur) deg rest).2 := by
        simp only [kahnLoopF]
      rw [hkl]
      have hmes := stepNeighbors_measure (adj pd cur) deg rest
      obtain ⟨hS1, hS2, hS3⟩ := stepNeighbors_deg (adj pd cur) deg rest
      have hSq := stepNeighbors_queue (adj pd cur) deg rest
      have hSn : (stepNeighbors (adj pd cur) deg rest).2.Nodup := by
        apply stepNeighbors_nodup
        · exact (List.nodup_cons.mp h3n).2
        · intro x hx
          obtain ⟨hx1, -, hx3⟩ := (h3 x).mp (List.mem_cons_of_mem _ hx)
          rw [h2 x hx1, hx3]
      have hsome : ∀ y, y ∈ pkgNames pd → ∃ info, List.lookup y pd = some info := by
        intro y hy
        have hs := (pkgNames_lookup_isSome pd y).mpr hy
        cases hlk : List.lookup y pd with
        | none => rw [hlk] at hs; simp at hs
        | some i => exact ⟨i, rfl⟩
      have hadj : adj pd cur = pd.flatMap (fun p => ((depNamesOf p.2).filter
          (fun d => d == cur)).map (fun _ => p.1)) := by
        unfold adj
        rw [if_pos hcn]
      have hcnt : ∀ y info, List.lookup y pd = some info →
          (adj pd cur).count y =
            ((depNamesOf info).filter (fun d => d == cur)).length := by
        intro y info hinfo
        rw [hadj]
        exact count_flatMap_deps cur pd hnd y info hinfo
      have hdone' : (done ++ [cur]).Nodup := by
        rw [List.nodup_append]
        exact ⟨h4, List.nodup_singleton cur,
          fun a ha hac => hcd ((List.mem_singleton.mp hac) ▸ ha)⟩
      have hI2' : ∀ x ∈ pkgNames pd,
          List.lookup x (stepNeighbors (adj pd cur) deg rest).1 =
            some (remDeg pd (done ++ [cur]) x) := by
        intro x hx
        obtain ⟨info, hinfo⟩ := hsome x hx
        have hstep := remDeg_step pd done cur hcn hcd x info hinfo
        rw [hS2 x (remDeg pd done x) (h2 x hx), hcnt x info hinfo]
        congr 1
        omega
      have hI3' : ∀ x, x ∈ (stepNeighbors (adj pd cur) deg rest).2 ↔
          x ∈ pkgNames pd ∧ x ∉ done ++ [cur] ∧
            remDeg pd (done ++ [cur]) x = 0 := by
        intro x
        rw [hSq x]
        constructor
        · rintro (hxr | ⟨d, hd, hd1, hd2⟩)
          · obtain ⟨hx1, hx2, hx3⟩ := (h3 x).mp (List.mem_cons_of_mem _ hxr)
            have hxcur : x ≠ cur := by
              intro he
              subst he
              exact (List.nodup_cons.mp h3n).1 hxr
            refine ⟨hx1, ?_, ?_⟩
            · rw [List.mem_append, List.mem_singleton]
              rintro (hc | hc)
              · exact hx2 hc
              · exact hxcur hc
            · have hmono := remDeg_mono pd (List.subset_append_left done [cur]) x
              omega
          · have hx1 : x ∈ pkgNames pd := by
              rw [← h1, ← lookup_isSome_iff_mem_keys, hd]
              rfl
            obtain ⟨info, hinfo⟩ := hsome x hx1
            have hdeq : remDeg pd done x = d :=
              Option.some.inj ((h2 x hx1).symm.trans hd)
            have hstep := remDeg_step pd done cur hcn hcd x info hinfo
            rw [hcnt x info hinfo] at hd2
            have hxd : x ∉ done := by
              intro hc
              have := h6 x hc
              omega
            have hxcur : x ≠ cur := by
              intro he
              subst he
              omega
            refine ⟨hx1, ?_, ?_⟩
            · rw [List.mem_append, List.mem_singleton]
              rintro (hc | hc)
              · exact hxd hc
              · exact hxcur hc
            · omega
        · rintro ⟨hx1, hx2, hx3⟩
          rw [List.mem_append, List.mem_singleton] at hx2
          push_neg at hx2
          obtain ⟨hx2d, hx2c⟩ := hx2
          by_cases hz : remDeg pd done x = 0
          · have hxq := (h3 x).mpr ⟨hx1, hx2d, hz⟩
            rcases List.mem_cons.mp hxq with he | hxr
            · exact absurd he hx2c
            · exact Or.inl hxr
          · obtain ⟨info, hinfo⟩ := hsome x hx1
            have hstep := remDeg_step pd done cur hcn hcd x info hinfo
            refine Or.inr ⟨remDeg pd done x, h2 x hx1, by omega, ?_⟩
            rw [hcnt x info hinfo]
            omega
      have hI4b' : ∀ x ∈ done ++ [cur], x ∈ pkgNames pd := by
        intro x hx
        rcases List.mem_append.mp hx with hxd | hxc
        · exact h4b x hxd
        · exact (List.mem_singleton.mp hxc) ▸ hcn
      have hI6' : ∀ x ∈ done ++ [cur], remDeg pd (done ++ [cur]) x = 0 := by
        intro x hx
        have hmono := remDeg_mono pd (List.subset_append_left done [cur]) x
        rcases List.mem_append.mp hx with hxd | hxc
        · have := h6 x hxd
          omega
        · have he : x = cur := List.mem_singleton.mp hxc
          subst he
          omega
      have hI5' : ∀ u v, depEdge pd u v → v ∈ done ++ [cur] →
          u ∈ done ++ [cur] ∧
            (done ++ [cur]).indexOf u < (done ++ [cur]).indexOf v := by
        intro u v he hv
        rcases List.mem_append.mp hv with hvd | hvc
        · obtain ⟨hu, hlt⟩ := h5 u v he hvd
          refine ⟨List.mem_append_left _ hu, ?_⟩
          rw [List.indexOf_append_of_mem hu, List.indexOf_append_of_mem hvd]
          exact hlt
        · have hveq : v = cur := List.mem_singleton.mp hvc
          subst hveq
          obtain ⟨hupkg, info, hvmem, hudep⟩ := (mem_adj_iff pd u v).mp he
          have hvlk : List.lookup v pd = some info := nodup_lookup_of_mem hnd hvmem
          have hful : u ∈ done := by
            by_contra hnd2
            have hmem : u ∈ (depNamesOf info).filter
                (fun d => decide (d ∈ pkgNames pd ∧ d ∉ done)) :=
              List.mem_filter.mpr ⟨hudep, by simp [hupkg, hnd2]⟩
            have hc0 := hcz
            rw [remDeg_eq_some done hvlk, List.length_eq_zero] at hc0
            rw [hc0] at hmem
            exact List.not_mem_nil u hmem
          refine ⟨List.mem_append_left _ hful, ?_⟩
          rw [List.indexOf_append_of_mem hful, List.indexOf_append_of_not_mem hcd,
            List.indexOf_cons_self]
          have := List.indexOf_lt_length.mpr hful
          omega
      have hm' : degMeasure (stepNeighbors (adj pd cur) deg rest).1
          (stepNeighbors (adj pd cur) deg rest).2 ≤ f := by
        refine Nat.le_trans hmes ?_
        unfold degMeasure at hm ⊢
        rw [List.length_cons] at hm
        omega
      obtain ⟨hC1, hC2, hC3, hC4⟩ := ih (stepNeighbors (adj pd cur) deg rest).1
        (stepNeighbors (adj pd cur) deg rest).2 (done ++ [cur]) hm'
        (by rw [hS1, h1]) hI2' hI3' hSn hdone' hI4b' hI6' hI5'
      rw [List.append_cons]
      refine ⟨hC1, ?_, hC3, hC4⟩
      intro x hx
      rcases List.mem_cons.mp hx with he | hx2
      · subst he
        exact ⟨hcn, hcd⟩
      · obtain ⟨ha, hb⟩ := hC2 x hx2
        exact ⟨ha, fun hc => hb (List.mem_append_left _ hc)⟩

theorem depEdge_source_mem {pd : PackagesData} {u v : String}
    (h : depEdge pd u v) : u ∈ pkgNames pd :=
  ((mem_adj_iff pd u v).mp h).1

theorem depEdge_target_mem {pd : PackagesData} {u v : String}
    (h : depEdge pd u v) : v ∈ pkgNames pd := by
  obtain ⟨-, info, hvm, -⟩ := (mem_adj_iff pd u v).mp h
  unfold pkgNames
  exact List.mem_map.mpr ⟨(v, info), hvm, rfl⟩

theorem kahn_result_spec (pd : PackagesData) (hnd : (pkgNames pd).Nodup) :
    (kahnResult pd).Nodup ∧
    (∀ x ∈ kahnResult pd, x ∈ pkgNames pd) ∧
    (∀ u v, depEdge pd u v → v ∈ kahnResult pd →
      u ∈ kahnResult pd ∧
        (kahnResult pd).indexOf u < (kahnResult pd).indexOf v) ∧
    (∀ x ∈ pkgNames pd, x ∉ kahnResult pd →
      remDeg pd (kahnResult pd) x ≠ 0) := by
  have h2 : ∀ x ∈ pkgNames pd, List.lookup x (initialDeg pd) =
      some (remDeg pd [] x) := by
    intro x hx
    rw [initialDeg_lookup]
    obtain ⟨info, hlk⟩ : ∃ info, List.lookup x pd = some info := by
      have hs := (pkgNames_lookup_isSome pd x).mpr hx
      cases hlk : List.lookup x pd with
      | none => rw [hlk] at hs; simp at hs
      | some i => exact ⟨i, rfl⟩
    rw [hlk]
    simp only [Option.map_some']
    rw [inDegreeOf_eq_remDeg pd x info hlk]
  have h3 : ∀ x, x ∈ initialQueue pd ↔ x ∈ pkgNames pd ∧
      x ∉ ([] : List String) ∧ remDeg pd [] x = 0 := by
    intro x
    rw [initialQueue_mem]
    simp
  have h3n : (initialQueue pd).Nodup := hnd.filter _
  obtain ⟨hC1, hC2, hC3, hC4⟩ := kahnLoopF_spec pd hnd
    (degMeasure (initialDeg pd) (initialQueue pd)) (initialDeg pd)
    (initialQueue pd) [] (Nat.le_refl _) (initialDeg_keys pd) h2 h3 h3n
    List.nodup_nil (fun x hx => absurd hx (List.not_mem_nil x))
    (fun x hx => absurd hx (List.not_mem_nil x))
    (fun u v _ hv => absurd hv (List.not_mem_nil v))
  rw [List.nil_append] at hC1 hC3 hC4
  exact ⟨hC1, fun x hx => (hC2 x hx).1, hC3, hC4⟩

theorem kahn_complete (pd : PackagesData) (hnd : (pkgNames pd).Nodup)
    (hacyc : ∀ v, ¬ Relation.TransGen (depEdge pd) v v) :
    ∀ x ∈ pkgNames pd, x ∈ kahnResult pd := by
  obtain ⟨-, -, -, hC4⟩ := kahn_result_spec pd hnd
  by_contra hc
  push_neg at hc
  obtain ⟨x₀, hx₀, hx₀n⟩ := hc
  have hSne : (pkgNames pd).filter
      (fun y => decide (y ∉ kahnResult pd)) ≠ [] := by
    intro hnil
    have hin : x₀ ∈ (pkgNames pd).filter (fun y => decide (y ∉ kahnResult pd)) :=
      List.mem_filter.mpr ⟨hx₀, by simpa using hx₀n⟩
    rw [hnil] at hin
    exact List.not_mem_nil x₀ hin
  have hpred : ∀ y ∈ (pkgNames pd).filter (fun y => decide (y ∉ kahnResult pd)),
      ∃ u, u ∈ (pkgNames pd).filter (fun y => decide (y ∉ kahnResult pd)) ∧
        depEdge pd u y := by
    intro y hy
    obtain ⟨hy1, hy2⟩ := List.mem_filter.mp hy
    rw [decide_eq_true_eq] at hy2
    obtain ⟨u, hu1, hu2, hu3⟩ := remDeg_pos_pred pd (kahnResult pd) y
      (hC4 y hy1 hy2)
    exact ⟨u, List.mem_filter.mpr ⟨hu1, by simpa using hu2⟩, hu3⟩
  obtain ⟨v, hv⟩ := cycle_of_all_have_pred hSne hpred
  exact hacyc v hv

theorem topological_sort_eq (pd : PackagesData) :
    topological_sort pd =
      if (kahnResult pd).length = pd.length then some (kahnResult pd)
      else none := rfl

theorem topological_sort_acyclic_some (pd : PackagesData)
    (hnd : (pkgNames pd).Nodup)
    (hacyc : ∀ v, ¬ Relation.TransGen (depEdge pd) v v) :
    topological_sort pd = some (kahnResult pd) ∧
    (∀ x, x ∈ kahnResult pd ↔ x ∈ pkgNames pd) ∧
    (kahnResult pd).Nodup ∧
    (∀ u v, depEdge pd u v →
      (kahnResult pd).indexOf u < (kahnResult pd).indexOf v) := by
  obtain ⟨hC1, hC2, hC3, hC4⟩ := kahn_result_spec pd hnd
  have hcompl := kahn_complete pd hnd hacyc
  have hmem : ∀ x, x ∈ kahnResult pd ↔ x ∈ pkgNames pd :=
    fun x => ⟨fun hx => hC2 x hx, fun hx => hcompl x hx⟩
  have hlen : (kahnResult pd).length = pd.length := by
    have hl := length_eq_of_nodup_subset_subset hC1 hnd
      (fun x hx => (hmem x).mp hx) (fun x hx => (hmem x).mpr hx)
    rw [hl]
    unfold pkgNames
    rw [List.length_map]
  refine ⟨?_, hmem, hC1, ?_⟩
  · rw [topological_sort_eq, if_pos hlen]
  · intro u v he
    have hv : v ∈ kahnResult pd := (hmem v).mpr (depEdge_target_mem he)
    exact (hC3 u v he hv).2

theorem topological_sort_cycle_none (pd : PackagesData)
    (hnd : (pkgNames pd).Nodup) {v₀ : String}
    (hcyc : Relation.TransGen (depEdge pd) v₀ v₀) :
    topological_sort pd = none := by
  obtain ⟨hC1, hC2, hC3, hC4⟩ := kahn_result_spec pd hnd
  rw [topological_sort_eq]
  by_cases hlen : (kahnResult pd).length = pd.length
  · exfalso
    have hsub : kahnResult pd ⊆ pkgNames pd := fun x hx => hC2 x hx
    have hperm : List.Perm (kahnResult pd) (pkgNames pd) := by
      apply List.Subperm.perm_of_length_le (hC1.subperm hsub)
      have hp : (pkgNames pd).length = pd.length := by
        unfold pkgNames
        rw [List.length_map]
      omega
    have hall : ∀ x ∈ pkgNames pd, x ∈ kahnResult pd :=
      fun x hx => hperm.mem_iff.mpr hx
    have hchain : ∀ a b, Relation.TransGen (depEdge pd) a b →
        (kahnResult pd).indexOf a < (kahnResult pd).indexOf b := by
      intro a b h
      induction h with
      | single h1 =>
        exact (hC3 _ _ h1 (hall _ (depEdge_target_mem h1))).2
      | tail h1 h2 ihh =>
        exact Nat.lt_trans ihh (hC3 _ _ h2 (hall _ (depEdge_target_mem h2))).2
    exact Nat.lt_irrefl _ (hchain v₀ v₀ hcyc)
  · rw [if_neg hlen]

theorem init_resolve_ok_eq {pd : PackagesData} {sF iF bF : String}
    {plan : ResolvePlan}
    (h : init_resolve pd sF iF bF = Except.ok plan) :
    check_dependency_conflicts pd = none ∧
    ∃ order, topological_sort pd = some order ∧
      plan = generate_package_resolve pd order sF iF bF := by
  unfold init_resolve at h
  cases hc : check_dependency_conflicts pd with
  | some cs =>
    rw [hc] at h
    simp at h
  | none =>
    rw [hc] at h
    cases ht : topological_sort pd with
    | none =>
      rw [ht] at h
      simp at h
    | some order =>
      rw [ht] at h
      simp only [Except.ok.injEq] at h
      exact ⟨rfl, order, rfl, h.symm⟩

theorem planEntries_get (pd : PackagesData) (iF bF : String) :
    ∀ (order : List String) (k i : Nat),
      (∀ n ∈ order, (List.lookup n pd).isSome) →
      i < order.length →
      ∃ p, (planEntries pd iF bF k order)[i]? = some p ∧
        p.2.build_index = k + i := by
  intro order
  induction order with
  | nil => intro k i _ hi; simp at hi
  | cons n ns iho =>
    intro k i hall hi
    obtain ⟨info, hinfo⟩ : ∃ info, List.lookup n pd = some info := by
      have hs := hall n (List.mem_cons_self _ _)
      cases hlk : List.lookup n pd with
      | none => rw [hlk] at hs; simp at hs
      | some i2 => exact ⟨i2, rfl⟩
    have hpe : planEntries pd iF bF k (n :: ns) =
        ((makePackageEntry iF bF k n info).name,
          makePackageEntry iF bF k n info) :: planEntries pd iF bF (k + 1) ns := by
      simp only [planEntries, hinfo]
    rw [hpe]
    cases i with
    | zero =>
      refine ⟨((makePackageEntry iF bF k n info).name,
        makePackageEntry iF bF k n info), List.getElem?_cons_zero, ?_⟩
      rfl
    | succ i =>
      rw [List.getElem?_cons_succ]
      obtain ⟨p, hp, hbi⟩ := iho (k + 1) i
        (fun m hm => hall m (List.mem_cons_of_mem _ hm))
        (by rw [List.length_cons] at hi; omega)
      exact ⟨p, hp, by omega⟩

theorem no_cycle_of_rank {edge : String → String → Prop} (f : String → Nat)
    (hf : ∀ u v, edge u v → f u < f v) :
    ∀ v, ¬ Relation.TransGen edge v v := by
  have key : ∀ a b, Relation.TransGen edge a b → f a < f b := by
    intro a b h
    induction h with
    | single h1 => exact hf _ _ h1
    | tail h1 h2 ihh => exact Nat.lt_trans ihh (hf _ _ h2)
  intro v hv
  exact Nat.lt_irrefl _ (key v v hv)

/-! ### Claim C1 -/

/-- **C1**: for every set of package descriptors with distinct names whose
dependency graph over known packages is acyclic, `topological_sort` produces
an install order containing exactly the known packages, in which every
dependency precedes its dependents; and whenever `init_resolve` emits a plan,
that plan is generated from this order and assigns 1-based build indices
(position in the order plus one) such that for every dependency edge the
dependency's build index is strictly less than the dependent's. -/
theorem c1_acyclic_resolve (pd : PackagesData) (hnd : (pkgNames pd).Nodup)
    (hacyc : ∀ v, ¬ Relation.TransGen (depEdge pd) v v) :
    ∃ order, topological_sort pd = some order ∧
      order.Nodup ∧ (∀ x, x ∈ order ↔ x ∈ pkgNames pd) ∧
      (∀ u v, depEdge pd u v → order.indexOf u < order.indexOf v) ∧
      (∀ sF iF bF plan, init_resolve pd sF iF bF = Except.ok plan →
        plan = generate_package_resolve pd order sF iF bF ∧
        ∀ u v, depEdge pd u v →
          ∃ p q, (planEntries pd iF bF 1 order)[order.indexOf u]? = some p ∧
            (planEntries pd iF bF 1 order)[order.indexOf v]? = some q ∧
            p.2.build_index = order.indexOf u + 1 ∧
            q.2.build_index = order.indexOf v + 1 ∧
            p.2.build_index < q.2.build_index) := by
  obtain ⟨hts, hmem, hnodup, hidx⟩ := topological_sort_acyclic_some pd hnd hacyc
  refine ⟨kahnResult pd, hts, hnodup, hmem, hidx, ?_⟩
  intro sF iF bF plan hok
  obtain ⟨hconf, order2, hts2, hplan⟩ := init_resolve_ok_eq hok
  have hord : order2 = kahnResult pd := by
    rw [hts] at hts2
    exact (Option.some.inj hts2).symm
  refine ⟨by rw [hplan, hord], ?_⟩
  intro u v he
  have hallsome : ∀ n ∈ kahnResult pd, (List.lookup n pd).isSome := by
    intro n hn
    rw [pkgNames_lookup_isSome]
    exact (hmem n).mp hn
  have hu : u ∈ kahnResult pd := (hmem u).mpr (depEdge_source_mem he)
  have hv : v ∈ kahnResult pd := (hmem v).mpr (depEdge_target_mem he)
  obtain ⟨p, hp, hpb⟩ := planEntries_get pd iF bF (kahnResult pd) 1
    ((kahnResult pd).indexOf u) hallsome (List.indexOf_lt_length.mpr hu)
  obtain ⟨q, hq, hqb⟩ := planEntries_get pd iF bF (kahnResult pd) 1
    ((kahnResult pd).indexOf v) hallsome (List.indexOf_lt_length.mpr hv)
  have hlt := hidx u v he
  exact ⟨p, q, hp, hq, by omega, by omega, by omega⟩

/-- C1 witness: `c1_acyclic_resolve` on the two-package chain (B depends on
A); the produced order puts A strictly before B. -/
theorem c1_acyclic_resolve_witness :
    (pkgNames pdChainC1).Nodup ∧
    ∃ order, topological_sort pdChainC1 = some order ∧
      order.indexOf "A" < order.indexOf "B" := by
  have hnd : (pkgNames pdChainC1).Nodup := by decide
  have hrank : ∀ u v, depEdge pdChainC1 u v →
      (if u = "B" then 1 else 0) < (if v = "B" then 1 else 0) := by
    intro u v he
    unfold depEdge adj at he
    by_cases hu : u ∈ pkgNames pdChainC1
    · rw [if_pos hu] at he
      have hu2 : u = "A" ∨ u = "B" := by
        have hpn : pkgNames pdChainC1 = ["A", "B"] := by decide
        rw [hpn] at hu
        simpa using hu
      rcases hu2 with rfl | rfl
      · have hev : pdChainC1.flatMap (fun p => ((depNamesOf p.2).filter
            (fun d => d == "A")).map (fun _ => p.1)) = ["B"] := by decide
        rw [hev] at he
        have hv : v = "B" := by simpa using he
        subst hv
        decide
      · have hev : pdChainC1.flatMap (fun p => ((depNamesOf p.2).filter
            (fun d => d == "B")).map (fun _ => p.1)) = [] := by decide
        rw [hev] at he
        exact absurd he (List.not_mem_nil v)
    · rw [if_neg hu] at he
      exact absurd he (List.not_mem_nil v)
  obtain ⟨order, hts, -, -, hidx, -⟩ :=
    c1_acyclic_resolve pdChainC1 hnd
      (no_cycle_of_rank (fun s => if s = "B" then 1 else 0) hrank)
  refine ⟨hnd, order, hts, hidx "A" "B" ?_⟩
  show "B" ∈ adj pdChainC1 "A"
  decide

/-! ### Claim C3 -/

/-- **C3 counterexample**: `pdConflictCycle` has a dependency cycle between
A and B, yet resolution does not fail with the cycle error — the conflict
check runs first and its failure (a tag conflict on B) wins. -/
theorem c3_counterexample :
    Relation.TransGen (depEdge pdConflictCycle) "A" "A" ∧
    init_resolve pdConflictCycle "/s" "/i" "/b" =
      Except.error (InitError.conflict [("B", [("A", "v1"), ("C", "v2")])]) ∧
    init_resolve pdConflictCycle "/s" "/i" "/b" ≠
      Except.error InitError.cycle := by
  refine ⟨?_, by rfl, ?_⟩
  · have h1 : depEdge pdConflictCycle "A" "B" := by
      show "B" ∈ adj pdConflictCycle "A"
      decide
    have h2 : depEdge pdConflictCycle "B" "A" := by
      show "A" ∈ adj pdConflictCycle "B"
      decide
    exact Relation.TransGen.tail (Relation.TransGen.single h1) h2
  · intro hc
    rw [show init_resolve pdConflictCycle "/s" "/i" "/b" =
        Except.error (InitError.conflict [("B", [("A", "v1"), ("C", "v2")])])
      from rfl] at hc
    simp at hc

/-- **C3 (amended)**: for every set of package descriptors with distinct
names whose dependency graph over known packages contains a cycle, the
topological sort fails and no resolve plan is emitted on any path; the
failure is surfaced as the cycle error provided the conflict check (which
runs first) passes. -/
theorem c3_cycle_detection (pd : PackagesData) (hnd : (pkgNames pd).Nodup)
    (v₀ : String) (hcyc : Relation.TransGen (depEdge pd) v₀ v₀) :
    topological_sort pd = none ∧
    (∀ sF iF bF plan, init_resolve pd sF iF bF ≠ Except.ok plan) ∧
    (check_dependency_conflicts pd = none →
      ∀ sF iF bF, init_resolve pd sF iF bF = Except.error InitError.cycle) := by
  have htn := topological_sort_cycle_none pd hnd hcyc
  refine ⟨htn, ?_, ?_⟩
  · intro sF iF bF plan hok
    obtain ⟨-, order, hts, -⟩ := init_resolve_ok_eq hok
    rw [htn] at hts
    exact Option.noConfusion hts
  · intro hconf sF iF bF
    simp only [init_resolve, hconf, htn]

/-- C3 witness: `c3_cycle_detection` on the 2-cycle fixture (A and B depend
on each other, no tag conflict): the sort fails, no plan is emitted, and the
failure is the cycle error. -/
theorem c3_cycle_detection_witness :
    (pkgNames pdCycleC3).Nodup ∧
    Relation.TransGen (depEdge pdCycleC3) "A" "A" ∧
    topological_sort pdCycleC3 = none ∧
    init_resolve pdCycleC3 "/s" "/i" "/b" = Except.error InitError.cycle := by
  have hnd : (pkgNames pdCycleC3).Nodup := by decide
  have h1 : depEdge pdCycleC3 "A" "B" := by
    show "B" ∈ adj pdCycleC3 "A"
    decide
  have h2 : depEdge pdCycleC3 "B" "A" := by
    show "A" ∈ adj pdCycleC3 "B"
    decide
  have hcyc : Relation.TransGen (depEdge pdCycleC3) "A" "A" :=
    Relation.TransGen.tail (Relation.TransGen.single h1) h2
  obtain ⟨htn, -, himp⟩ := c3_cycle_detection pdCycleC3 hnd "A" hcyc
  exact ⟨hnd, hcyc, htn, himp (by decide) "/s" "/i" "/b"⟩

end Arieo
